import Mathlib

set_option maxHeartbeats 1000000
set_option linter.unusedVariables false

/-!
Verification of the n8n workflow reconciliation scripts
(`scripts/sync-workflows.mjs` and the smart-sync part of `scripts/await-n8n.mjs`).

The JavaScript sources are embedded shallowly:

* JSON values become the inductive type `J`; JavaScript object semantics
  (property lookup, truthiness, `Map` insertion order with last-write-wins
  values) are modelled by small helper functions.
* Workflow records, nodes and credentials become structures whose fields are
  exactly the fields the scripts read or write.  JavaScript `undefined` or an
  absent property is modelled by `Option`.
* `JSON.stringify(a) !== JSON.stringify(b)` comparisons in the sources are
  modelled by structural disequality of the corresponding Lean values;
  `JSON.stringify` is injective on parsed JSON values and preserves field
  order, so the two agree.
* The stateful depth-first dependency resolver of `sync-workflows.mjs`
  becomes a pair of mutually recursive functions threading an explicit
  state record; termination is proved by the same argument that bounds the
  recursion depth of the script (the `visiting` set grows inside the name
  domain of the workflow map).
-/

namespace N8n

/-! ## JSON values and JavaScript-semantics helpers -/

/-- A parsed JSON value.  Object fields keep their textual order, as
JavaScript property enumeration and `JSON.stringify` do. -/
inductive J where
  | null : J
  | bool (b : Bool) : J
  | num (n : Int) : J
  | str (s : String) : J
  | arr (xs : List J) : J
  | obj (fields : List (String × J)) : J

mutual
def jBeq : J → J → Bool
  | J.null, J.null => true
  | J.bool a, J.bool b => a = b
  | J.num a, J.num b => a = b
  | J.str a, J.str b => a = b
  | J.arr xs, J.arr ys => jBeqList xs ys
  | J.obj fs, J.obj gs => jBeqFields fs gs
  | _, _ => false

def jBeqList : List J → List J → Bool
  | [], [] => true
  | x :: xs, y :: ys => jBeq x y && jBeqList xs ys
  | _, _ => false

def jBeqFields : List (String × J) → List (String × J) → Bool
  | [], [] => true
  | (k, v) :: fs, (k2, v2) :: gs => k = k2 && jBeq v v2 && jBeqFields fs gs
  | _, _ => false
end

mutual
theorem jBeq_iff : ∀ a b : J, jBeq a b = true ↔ a = b
  | a, b => by
    cases a <;> cases b <;> simp [jBeq]
    case arr.arr xs ys => exact jBeqList_iff xs ys
    case obj.obj fs gs => exact jBeqFields_iff fs gs

theorem jBeqList_iff : ∀ xs ys : List J, jBeqList xs ys = true ↔ xs = ys
  | [], [] => by simp [jBeqList]
  | [], _ :: _ => by simp [jBeqList]
  | _ :: _, [] => by simp [jBeqList]
  | x :: xs, y :: ys => by
    simp [jBeqList, Bool.and_eq_true, jBeq_iff x y, jBeqList_iff xs ys]

theorem jBeqFields_iff : ∀ fs gs : List (String × J), jBeqFields fs gs = true ↔ fs = gs
  | [], [] => by simp [jBeqFields]
  | [], _ :: _ => by simp [jBeqFields]
  | _ :: _, [] => by simp [jBeqFields]
  | (k, v) :: fs, (k2, v2) :: gs => by
    simp [jBeqFields, Bool.and_eq_true, jBeq_iff v v2, jBeqFields_iff fs gs, and_assoc]
end

instance : DecidableEq J := fun a b => decidable_of_iff _ (jBeq_iff a b)

/-- JavaScript truthiness of a JSON value: `null`, `false`, `0` and the empty
string are falsy, every array and object (even empty ones) is truthy. -/
def jsTruthy : J → Bool
  | J.null => false
  | J.bool b => b
  | J.num n => decide (n ≠ 0)
  | J.str s => decide (s ≠ "")
  | J.arr _ => true
  | J.obj _ => true

/-- Truthiness of an optional string-valued field (absent and `""` are falsy). -/
def strTruthy : Option String → Bool
  | some s => decide (s ≠ "")
  | none => false

/-- Truthiness of an optional JSON-valued field. -/
def jTruthy : Option J → Bool
  | some v => jsTruthy v
  | none => false

/-- Property lookup on a JSON object field list (JavaScript objects have
unique keys; on a malformed duplicate the first entry is read). -/
def jsGet (fields : List (String × J)) (k : String) : Option J :=
  (fields.find? (fun kv => kv.1 = k)).map (fun kv => kv.2)

/-- Property lookup on a JSON value, `undefined` on a non-object. -/
def jGet (v : J) (k : String) : Option J :=
  match v with
  | J.obj fs => jsGet fs k
  | _ => none

/-- JavaScript `m.set(k, v)` / property assignment: an existing key keeps its
position and gets the new value, a new key is appended at the end. -/
def jsMapSet {α : Type} (m : List (String × α)) (k : String) (v : α) : List (String × α) :=
  if m.any (fun kv => kv.1 = k) then
    m.map (fun kv => if kv.1 = k then (k, v) else kv)
  else m ++ [(k, v)]

/-- Building a JavaScript `Map` from an entry list (later entries overwrite
earlier ones but keep the original position). -/
def jsMapOfList {α : Type} (l : List (String × α)) : List (String × α) :=
  l.foldl (fun m kv => jsMapSet m kv.1 kv.2) []

/-- JavaScript `m.get(k)` (`none` plays the role of `undefined`). -/
def jsMapGet {α : Type} (m : List (String × α)) (k : String) : Option α :=
  (m.find? (fun kv => kv.1 = k)).map (fun kv => kv.2)

/-- JavaScript `m.has(k)`. -/
def jsMapHas {α : Type} (m : List (String × α)) (k : String) : Bool :=
  m.any (fun kv => kv.1 = k)

/-- Property assignment on a JSON value (no effect on non-objects, as the
scripts only assign into objects they have already read a property from). -/
def jSet (v : J) (k : String) (x : J) : J :=
  match v with
  | J.obj fs => J.obj (jsMapSet fs k x)
  | other => other

/-- The `repoSettings || {}` and `node.parameters || {}` pattern: a falsy
value is replaced by a fresh empty object. -/
def jsOrEmptyObj (o : Option J) : J :=
  match o with
  | some v => if jsTruthy v then v else J.obj []
  | none => J.obj []

/-! ## Data model

`Credential` captures exactly the credential-entry fields the scripts read:
the server-assigned `id`, the display `name`, the repository placeholder
marker `_preserveInstance` (its JavaScript truthiness, as the scripts only
test it) and the presence of a truthy repository type marker `_type`. -/

structure Credential where
  id : Option String
  name : Option String
  preserveInstance : Bool
  typeMarker : Bool
deriving DecidableEq

/-- A credentials mapping: credential type → credential entry, in property
order. -/
abbrev CredMap := List (String × Credential)

/-- The `meta` object of a workflow; the scripts only touch `instanceId`. -/
structure WfMeta where
  instanceId : Option String
deriving DecidableEq

/-- A workflow node.  Identity across repository and remote copies is the
`(name, type)` pair; `id`, `webhookId` and `position` are server-owned. -/
structure Node where
  id : Option String
  name : String
  type : String
  parameters : Option J
  credentials : Option CredMap
  webhookId : Option String
  position : Option J
deriving DecidableEq

/-- A workflow record (repository or remote shape; absent fields are `none`).
`credentials` is a top-level property of the raw JSON object: workflow files
normally never carry one (credentials live inside nodes), but the smart-sync
loader keeps every field of the parsed file, so the field is representable;
`SmartWorkflowSyncer.handleCreate` reads exactly this property. -/
structure Workflow where
  id : Option String
  name : String
  nodes : Option (List Node)
  connections : Option (List (String × J))
  settings : Option J
  createdAt : Option String
  updatedAt : Option String
  meta : Option WfMeta
  credentials : Option CredMap
deriving DecidableEq

/-! ## SmartWorkflowMerger (`scripts/await-n8n.mjs`, lines 300-409) -/

/-- Credential-type lookup inside a credentials object. -/
def lookupCred (creds : CredMap) (t : String) : Option Credential :=
  (creds.find? (fun tc => tc.1 = t)).map (fun tc => tc.2)

/-- The `{ name: cred.name }` object built by the cleaning branches. -/
def cleanCredential (c : Credential) : Credential :=
  { id := none, name := c.name, preserveInstance := false, typeMarker := false }

/-- `SmartWorkflowMerger.cleanRepoCredentials`: a `_preserveInstance`-marked
entry is reduced to its display name, everything else passes through. -/
def cleanRepoCredentials (repoCredentials : CredMap) : CredMap :=
  repoCredentials.map (fun tc =>
    if tc.2.preserveInstance then (tc.1, cleanCredential tc.2) else tc)

/-- The per-entry body of the `for (const [type, repoCred] of ...)` loop in
`SmartWorkflowMerger.mergeCredentials`: preserve the remote credential when
the repository entry is `_preserveInstance`-marked and the remote binding
exists, otherwise clean a `_type`-marked placeholder, otherwise pass the
repository entry through. -/
def mergeCredEntry (ec : CredMap) (tc : String × Credential) : String × Credential :=
  match (if tc.2.preserveInstance then lookupCred ec tc.1 else none) with
  | some e => (tc.1, e)
  | none => if tc.2.typeMarker then (tc.1, cleanCredential tc.2) else tc

/-- `SmartWorkflowMerger.mergeCredentials`.  The result object is built from
the repository entries in order; `!repoCredentials` and
`!existingCredentials` are the JavaScript checks for an absent mapping (an
empty object is truthy and takes the merge path). -/
def mergeCredentials (repoCredentials existingCredentials : Option CredMap) : Option CredMap :=
  match repoCredentials, existingCredentials with
  | none, _ => existingCredentials
  | some rc, none => some (cleanRepoCredentials rc)
  | some rc, some ec => some (rc.map (mergeCredEntry ec))

/-- `SmartWorkflowMerger.prepareNewNode`: shallow copy plus credential
cleaning when a credentials property is present. -/
def prepareNewNode (repoNode : Node) : Node :=
  { repoNode with credentials := repoNode.credentials.map cleanRepoCredentials }

/-- The logical-identity key used by both the merger and the change
detector, from the template literal joining name and type with a colon. -/
def nodeKey (n : Node) : String := n.name ++ ":" ++ n.type

/-- The lookup behaviour of the `Map` built from a node list: a later node
with the same key overwrites an earlier one. -/
def findByKey (nodes : List Node) (k : String) : Option Node :=
  nodes.foldl (fun acc n => if nodeKey n = k then some n else acc) none

/-- The body of the `repoNodes.map` callback in
`SmartWorkflowMerger.mergeNodes`: merge against the matched remote node, or
prepare a brand-new node. -/
def mergeOneNode (existingNodes : List Node) (repoNode : Node) : Node :=
  match findByKey existingNodes (nodeKey repoNode) with
  | some existingNode =>
    let m1 := { repoNode with id := existingNode.id }
    let m2 := if strTruthy existingNode.webhookId then
        { m1 with webhookId := existingNode.webhookId } else m1
    let m3 := if jTruthy existingNode.position then
        { m2 with position := existingNode.position } else m2
    { m3 with credentials := mergeCredentials repoNode.credentials existingNode.credentials }
  | none => prepareNewNode repoNode

/-- `SmartWorkflowMerger.mergeNodes`. -/
def mergeNodes (repoNodes existingNodes : List Node) : List Node :=
  repoNodes.map (mergeOneNode existingNodes)

/-- `SmartWorkflowMerger.mergeWorkflows`.  The deep copy of the repository
record is the starting value; each truthy remote instance field overwrites
it; nodes are merged when both sides carry a nodes array. -/
def mergeWorkflows (repoWorkflow existingWorkflow : Workflow) : Workflow :=
  let merged := repoWorkflow
  let merged := if strTruthy existingWorkflow.id then
      { merged with id := existingWorkflow.id } else merged
  let merged := if strTruthy existingWorkflow.createdAt then
      { merged with createdAt := existingWorkflow.createdAt } else merged
  let merged := if strTruthy existingWorkflow.updatedAt then
      { merged with updatedAt := existingWorkflow.updatedAt } else merged
  let merged :=
    match existingWorkflow.meta with
    | some m =>
      if strTruthy m.instanceId then
        { merged with meta := some { instanceId := m.instanceId } }
      else merged
    | none => merged
  match repoWorkflow.nodes, existingWorkflow.nodes with
  | some rs, some es => { merged with nodes := some (mergeNodes rs es) }
  | _, _ => merged

/-- `SmartWorkflowSyncer.handleCreate` passes the whole workflow object to
`prepareNewNode` (a node-level helper).  The helper shallow-copies the object
and cleans its `credentials` property; on a workflow object that property is
the top-level one, so the credentials inside the nodes are untouched. -/
def handleCreatePayload (repoWorkflow : Workflow) : Workflow :=
  { repoWorkflow with credentials := repoWorkflow.credentials.map cleanRepoCredentials }

/-! ## ChangeDetector (`scripts/await-n8n.mjs`, lines 160-298) -/

/-- The `typeof obj.name === "string"` test of
`ChangeDetector.removeCredentialIds`. -/
def hasStringName (fields : List (String × J)) : Bool :=
  match jsGet fields "name" with
  | some (J.str _) => true
  | _ => false

mutual
/-- `ChangeDetector.removeCredentialIds`: delete every `id` key of an object
that also carries a string-valued `name` (a credential reference), recursing
into all other object and array values.  The `name` property is never
modified by the recursion, so its string test is hoisted out of the field
loop. -/
def removeCredentialIds : J → J
  | J.null => J.null
  | J.bool b => J.bool b
  | J.num n => J.num n
  | J.str s => J.str s
  | J.arr xs => J.arr (removeCredentialIdsList xs)
  | J.obj fs => J.obj (removeCredentialIdsFields (hasStringName fs) fs)

def removeCredentialIdsList : List J → List J
  | [] => []
  | x :: xs => removeCredentialIds x :: removeCredentialIdsList xs

def removeCredentialIdsFields : Bool → List (String × J) → List (String × J)
  | _, [] => []
  | nameStr, (k, v) :: rest =>
    if k = "id" ∧ nameStr = true then removeCredentialIdsFields nameStr rest
    else (k, removeCredentialIds v) :: removeCredentialIdsFields nameStr rest
end

/-- `ChangeDetector.cleanParameters`: the `JSON.parse(JSON.stringify _)`
deep copy is the identity on parsed JSON values; the credential identifiers
are then removed. -/
def cleanParameters (params : J) : J := removeCredentialIds params

/-- `ChangeDetector.nodeParametersChanged` (with the `|| {}` defaults). -/
def nodeParametersChanged (repoNode existingNode : Node) : Bool :=
  cleanParameters (jsOrEmptyObj repoNode.parameters)
    != cleanParameters (jsOrEmptyObj existingNode.parameters)

/-- One entry of the change list built by `ChangeDetector.detectNodeChanges`. -/
structure NodeChange where
  changeType : String
  node : String
deriving DecidableEq

/-- `ChangeDetector.detectNodeChanges`: added, removed and modified buckets
over the two identity-keyed maps. -/
def detectNodeChanges (repoNodes existingNodes : Option (List Node)) : List NodeChange :=
  match repoNodes, existingNodes with
  | some rs, some es =>
    let repoMap := jsMapOfList (rs.map (fun n => (nodeKey n, n)))
    let existingMap := jsMapOfList (es.map (fun n => (nodeKey n, n)))
    let added := repoMap.filterMap (fun kn =>
      if jsMapHas existingMap kn.1 then none else some ⟨"added", kn.2.name⟩)
    let removed := existingMap.filterMap (fun kn =>
      if jsMapHas repoMap kn.1 then none else some ⟨"removed", kn.2.name⟩)
    let modified := repoMap.filterMap (fun kn =>
      match jsMapGet existingMap kn.1 with
      | some e => if nodeParametersChanged kn.2 e then some ⟨"modified", kn.2.name⟩ else none
      | none => none)
    added ++ removed ++ modified
  | _, _ => []

/-- `ChangeDetector.normalizeConnections`: a falsy connections value becomes
an empty object, otherwise the entry-by-entry deep copy is the identity. -/
def normalizeConnections (connections : Option (List (String × J))) : List (String × J) :=
  match connections with
  | none => []
  | some m => m

/-- `ChangeDetector.detectConnectionChanges`. -/
def detectConnectionChanges (repoConnections existingConnections : Option (List (String × J))) : Bool :=
  normalizeConnections repoConnections != normalizeConnections existingConnections

/-- `ChangeDetector.detectSettingsChanges`. -/
def detectSettingsChanges (repoSettings existingSettings : Option J) : Bool :=
  jsOrEmptyObj repoSettings != jsOrEmptyObj existingSettings

/-- The result record of `ChangeDetector.detectChanges` (the summary string
is presentation only and is not modelled). -/
structure Changes where
  nameChanged : Bool
  nodes : List NodeChange
  connections : Bool
  settings : Bool
  hasChanges : Bool
deriving DecidableEq

/-- `ChangeDetector.detectChanges`. -/
def detectChanges (repoWorkflow existingWorkflow : Workflow) : Changes :=
  let nameChanged := repoWorkflow.name != existingWorkflow.name
  let nodes := detectNodeChanges repoWorkflow.nodes existingWorkflow.nodes
  let connections := detectConnectionChanges repoWorkflow.connections existingWorkflow.connections
  let settings := detectSettingsChanges repoWorkflow.settings existingWorkflow.settings
  { nameChanged := nameChanged
    nodes := nodes
    connections := connections
    settings := settings
    hasChanges := nameChanged || decide (nodes.length > 0) || connections || settings }

/-! ## The claim-side relation for no-op detection

The specification describes two records that are "structurally identical
except for credential identifier sub-fields", a credential identifier
sub-field being the `id` key of any object that pairs it with a
string-valued human-readable `name`.  `credIdEquiv` is that relation,
written directly from this description (independently of the detector
implementation above): values must agree structurally, except that inside an
object carrying a string `name` the two sides may disagree on (or drop)
their `id` entries. -/

mutual
def credIdEquiv : J → J → Bool
  | J.null, J.null => true
  | J.bool a, J.bool b => a = b
  | J.num a, J.num b => a = b
  | J.str a, J.str b => a = b
  | J.arr xs, J.arr ys => credIdEquivList xs ys
  | J.obj fs, J.obj gs => credIdEquivFields (hasStringName fs) (hasStringName gs) fs gs
  | _, _ => false

def credIdEquivList : List J → List J → Bool
  | [], [] => true
  | x :: xs, y :: ys => credIdEquiv x y && credIdEquivList xs ys
  | _, _ => false

def credIdEquivFields : Bool → Bool → List (String × J) → List (String × J) → Bool
  | bf, bg, (k, v) :: fs, gs =>
    if k = "id" ∧ bf = true then credIdEquivFields bf bg fs gs
    else
      match gs with
      | (k2, v2) :: gs2 =>
        if k2 = "id" ∧ bg = true then credIdEquivFields bf bg ((k, v) :: fs) gs2
        else k = k2 && credIdEquiv v v2 && credIdEquivFields bf bg fs gs2
      | [] => false
  | bf, bg, [], (k2, _) :: gs2 => (decide (k2 = "id") && bg) && credIdEquivFields bf bg [] gs2
  | _, _, [], [] => true
end

/-! ## DependencyResolver (`scripts/sync-workflows.mjs`, lines 178-218) -/

/-- A workflow record as loaded by `FileLoader.loadWorkflow`: the sanitized
workflow plus identity and dependency data (the file path is not modelled,
nothing reads it after loading). -/
structure WfRec where
  name : String
  nameLower : String
  workflow : Workflow
  dependencies : List String
deriving DecidableEq

/-- The mutable resolver state: the `visited` set, the output array and the
emitted circular-dependency warnings (in order).  `visited` is kept as a
list in insertion order; the script only ever adds to it. -/
structure RState where
  visited : List String
  sorted : List WfRec
  warnings : List String
deriving DecidableEq

/-- `workflowMap.get`: the `Map` built from the records keyed by
`nameLower`, a later record overwriting an earlier one with the same key. -/
def wmGet (ws : List WfRec) (n : String) : Option WfRec :=
  ws.foldl (fun acc wf => if wf.nameLower = n then some wf else acc) none

/-- `workflowMap.has`. -/
def wmHas (ws : List WfRec) (n : String) : Bool :=
  (wmGet ws n).isSome

/-- Termination measure of the depth-first walk: the number of distinct
workflow names not yet on the `visiting` stack. -/
def resMeasure (ws : List WfRec) (visiting : List String) : Nat :=
  (((ws.map (fun w => w.nameLower)).dedup).filter (fun k => ¬ k ∈ visiting)).length

theorem wmGet_mem_names {ws : List WfRec} {n : String} {w : WfRec}
    (h : wmGet ws n = some w) : n ∈ ws.map (fun w => w.nameLower) := by
  induction ws using List.reverseRecOn with
  | nil => simp [wmGet] at h
  | append_singleton xs x ih =>
    simp only [wmGet, List.foldl_append, List.foldl_cons, List.foldl_nil] at h
    by_cases hx : x.nameLower = n
    · simp [hx]
    · simp only [hx, if_false] at h
      simp only [List.map_append, List.mem_append]
      exact Or.inl (ih h)

theorem resMeasure_lt (ws : List WfRec) (visiting : List String) (n : String)
    (hdom : n ∈ ws.map (fun w => w.nameLower)) (hnv : ¬ n ∈ visiting) :
    resMeasure ws (n :: visiting) < resMeasure ws visiting := by
  unfold resMeasure
  have hsub : ∀ l : List String,
      (l.filter (fun k => ¬ k ∈ (n :: visiting))).length
        = ((l.filter (fun k => ¬ k ∈ visiting)).filter (fun k => ¬ k = n)).length := by
    intro l
    rw [List.filter_filter]
    congr 1
    apply List.filter_congr
    intro x _
    rcases Decidable.em (x = n) with h1 | h1 <;>
      rcases Decidable.em (x ∈ visiting) with h2 | h2 <;>
        simp [h1, h2]
  rw [hsub]
  apply List.length_filter_lt_length_iff_exists.mpr
  refine ⟨n, ?_, by simp⟩
  rw [List.mem_filter]
  exact ⟨List.mem_dedup.mpr hdom, by simp [hnv]⟩

mutual
/-- The recursive `visit` closure of
`DependencyResolver.sortByDependencies`.  The `visiting` stack is passed
functionally: the script adds the name before the dependency loop and
removes it right after, so each recursive call sees exactly the stack of its
caller plus the caller name. -/
def visit (ws : List WfRec) (visiting : List String) (n : String) (st : RState) : RState :=
  if n ∈ st.visited then st
  else if hv : n ∈ visiting then { st with warnings := st.warnings ++ [n] }
  else
    match h : wmGet ws n with
    | none => st
    | some wf =>
      let st2 := visitDeps ws (n :: visiting) wf.dependencies st
      { st2 with visited := st2.visited ++ [n], sorted := st2.sorted ++ [wf] }
termination_by (resMeasure ws visiting, 0)
decreasing_by
  apply Prod.Lex.left
  exact resMeasure_lt ws visiting n (wmGet_mem_names h) hv

/-- The dependency loop inside `visit`: a dependency is visited only when it
is a loaded workflow name. -/
def visitDeps (ws : List WfRec) (visiting : List String) (deps : List String) (st : RState) : RState :=
  match deps with
  | [] => st
  | d :: rest =>
    let st2 := if wmHas ws d then visit ws visiting d st else st
    visitDeps ws visiting rest st2
termination_by (resMeasure ws visiting, deps.length + 1)
decreasing_by
  all_goals apply Prod.Lex.right
  all_goals simp
end

/-- The full resolver state after the top-level loop of
`DependencyResolver.sortByDependencies`. -/
def sortState (ws : List WfRec) : RState :=
  ws.foldl (fun st wf => visit ws [] wf.nameLower st) ⟨[], [], []⟩

/-- `DependencyResolver.sortByDependencies`. -/
def sortByDependencies (ws : List WfRec) : List WfRec :=
  (sortState ws).sorted

/-- The dependency relation the resolver works over: `DependsOn ws x y`
holds when the loaded record with identity key `x` lists `y` in its
dependency set and `y` is itself a loaded identity key. -/
def edgeB (ws : List WfRec) (x y : String) : Bool :=
  match wmGet ws x with
  | some w => y ∈ w.dependencies && wmHas ws y
  | none => false

def DependsOn (ws : List WfRec) (x y : String) : Prop := edgeB ws x y = true

/-! ## Sync orchestration (`scripts/sync-workflows.mjs`, lines 105-401) -/

/-- The node type string recognized as a sub-workflow execution step. -/
def execWorkflowType : String := "n8n-nodes-base.executeWorkflow"

/-- The `params.workflowId || params.workflow` selection in
`WorkflowProcessor.updateWorkflowReferences`, returned as the property name
holding the workflow-reference object (`none` when the expression is
`undefined`). -/
def selectWorkflowParam (params : J) : Option String :=
  if jTruthy (jGet params "workflowId") then some "workflowId"
  else
    match jGet params "workflow" with
    | some _ => some "workflow"
    | none => none

/-- The run-scoped name→identifier map.  Values are optional because the
script seeds it with `wf.id || wf._id`, which can be `undefined` for a
malformed remote summary; `Map.get` cannot distinguish a stored `undefined`
from an absent key. -/
abbrev NameToId := List (String × Option String)

/-- The observable result of `nameToIdMap.get`: an entry holding `undefined`
reads the same as a missing entry. -/
def mapGetId (m : NameToId) (k : String) : Option String :=
  match jsMapGet m k with
  | some v => v
  | none => none

/-- The per-node body of `WorkflowProcessor.updateWorkflowReferences`.  All
guards of the script are reproduced: node type, truthiness of
`workflowParam?.cachedResultName` (a truthy non-string would make the
`toLowerCase` call throw and is outside the model), truthiness of the mapped
identifier, and the skip when the value is already the mapped identifier
(in which case the node is returned unchanged, exactly as the script leaves
it). -/
def updateRefNode (nameToIdMap : NameToId) (node : Node) : Node :=
  if node.type = execWorkflowType then
    let params := jsOrEmptyObj node.parameters
    match selectWorkflowParam params with
    | none => node
    | some pk =>
      let wp := (jGet params pk).getD J.null
      match jGet wp "cachedResultName" with
      | some (J.str s) =>
        if s ≠ "" then
          match mapGetId nameToIdMap s.toLower with
          | some dependencyId =>
            if dependencyId ≠ "" ∧ jGet wp "value" ≠ some (J.str dependencyId) then
              { node with parameters := some (jSet params pk (jSet wp "value" (J.str dependencyId))) }
            else node
          | none => node
        else node
      | _ => node
  else node

/-- `WorkflowProcessor.updateWorkflowReferences` (the returned `updated`
flag is discarded by the caller and not modelled). -/
def updateWorkflowReferences (workflow : Workflow) (nameToIdMap : NameToId) : Workflow :=
  match workflow.nodes with
  | none => workflow
  | some ns => { workflow with nodes := some (ns.map (updateRefNode nameToIdMap)) }

/-- The per-record counters of `WorkflowSyncer.sync`. -/
structure SyncResults where
  created : Nat
  updated : Nat
  errors : Nat
deriving DecidableEq

/-- The run state threaded through the apply loop: the name→identifier map,
the counters, and the trace of workflow payloads handed to the write calls
(`createWorkflow` / `updateWorkflow`), in call order. -/
structure SyncState where
  nameToIdMap : NameToId
  results : SyncResults
  writes : List Workflow
deriving DecidableEq

/-- The response of a create call: `created.id || created.data?.id`. -/
structure CreatedData where
  id : Option String
deriving DecidableEq

structure CreateResp where
  id : Option String
  data : Option CreatedData
deriving DecidableEq

/-- The `const newId = created.id || created.data?.id; if (newId)` extraction
in `WorkflowSyncer.processWorkflow`: `some` exactly when the script takes
the success branch. -/
def respNewId (created : CreateResp) : Option String :=
  let newId := if strTruthy created.id then created.id
    else created.data.bind (fun d => d.id)
  if strTruthy newId then newId else none

/-- `WorkflowSyncer.processWorkflow`.  The create response is supplied by an
oracle keyed by the record identity (the remote service is outside the
model).  The returned flag is `true` when the script throws (create call
returned no usable identifier); the throw happens after the create call but
before any map registration, so the state carries the write but not a map
entry. -/
def processWorkflow (api : String → CreateResp) (existingByName : List (String × Option String))
    (st : SyncState) (wd : WfRec) : SyncState × Bool :=
  let workflow := updateWorkflowReferences wd.workflow st.nameToIdMap
  match jsMapGet existingByName wd.nameLower with
  | some _ =>
    ({ st with writes := st.writes ++ [workflow],
               results := { st.results with updated := st.results.updated + 1 } }, false)
  | none =>
    let created := api wd.nameLower
    let st1 := { st with writes := st.writes ++ [workflow] }
    match respNewId created with
    | some newId =>
      ({ st1 with nameToIdMap := jsMapSet st1.nameToIdMap wd.nameLower (some newId),
                  results := { st1.results with created := st1.results.created + 1 } }, false)
    | none => (st1, true)

/-- The apply loop of `WorkflowSyncer.sync`: each record is processed in
order, a throw is caught, counted as an error and the loop continues. -/
def syncLoop (api : String → CreateResp) (existingByName : List (String × Option String))
    (st : SyncState) : List WfRec → SyncState
  | [] => st
  | wd :: rest =>
    let step := processWorkflow api existingByName st wd
    let st3 := if step.2 then
        { step.1 with results := { step.1.results with errors := step.1.results.errors + 1 } }
      else step.1
    syncLoop api existingByName st3 rest

/-! ## Well-formedness of remote records

A remote credentials object as stored by the server is a JSON object with
unique credential-type keys whose entries are genuine server references;
in particular they never carry the repository-only `_type` marker (that
marker is written only by the repository sanitizer).  These predicates state
exactly that, and are the side condition under which the merge is
idempotent. -/

def credsOk (ec : CredMap) : Bool :=
  ec.all (fun tc => tc.2.typeMarker = false) && decide (ec.map Prod.fst).Nodup

def nodeCredsOk (e : Node) : Bool :=
  match e.credentials with
  | some ec => credsOk ec
  | none => true

def remoteNodesOk (w : Workflow) : Bool :=
  match w.nodes with
  | some ns => ns.all nodeCredsOk
  | none => true

/-! ## Generic lemmas about the JavaScript-semantics helpers -/

theorem find?_key_eq {α : Type} {l : List (String × α)} {t : String} {kv : String × α}
    (h : l.find? (fun kv => kv.1 = t) = some kv) : kv.1 = t ∧ kv ∈ l :=
  ⟨by simpa using List.find?_some h, List.mem_of_find?_eq_some h⟩

theorem find?_map_comm {α β : Type} (f : String × α → String × β)
    (hf : ∀ x, (f x).1 = x.1) (l : List (String × α)) (t : String) :
    (l.map f).find? (fun kv => kv.1 = t) = (l.find? (fun kv => kv.1 = t)).map f := by
  induction l with
  | nil => rfl
  | cons x xs ih =>
    by_cases hx : x.1 = t
    · simp [List.find?_cons, hf x, hx]
    · simp [List.find?_cons, hf x, hx, ih]

/-! ## Lemmas about the merge engine -/

theorem lookupCred_some {rc : CredMap} {t : String} {c : Credential}
    (h : lookupCred rc t = some c) : (t, c) ∈ rc := by
  unfold lookupCred at h
  cases hf : rc.find? (fun kv => kv.1 = t) with
  | none => rw [hf] at h; cases h
  | some kv =>
    rw [hf] at h
    simp only [Option.map_some'] at h
    obtain ⟨hk, hmem⟩ := find?_key_eq hf
    obtain ⟨k1, c1⟩ := kv
    simp only at hk h
    subst hk
    injection h with h2
    subst h2
    exact hmem

theorem lookupCred_of_mem_nodup {ec : CredMap} (hnd : (ec.map Prod.fst).Nodup)
    {t : String} {c : Credential} (hm : (t, c) ∈ ec) : lookupCred ec t = some c := by
  induction ec with
  | nil => cases hm
  | cons x xs ih =>
    rcases List.mem_cons.mp hm with rfl | hm2
    · unfold lookupCred
      simp [List.find?_cons]
    · have hx : ¬ x.1 = t := by
        intro he
        have : t ∈ xs.map Prod.fst := List.mem_map.mpr ⟨(t, c), hm2, rfl⟩
        rw [List.map_cons, List.nodup_cons] at hnd
        exact hnd.1 (he ▸ this)
      have := ih (by rw [List.map_cons, List.nodup_cons] at hnd; exact hnd.2) hm2
      unfold lookupCred at this ⊢
      simp only [List.find?_cons, hx]
      simpa [hx] using this

theorem mergeCredEntry_key (ec : CredMap) (tc : String × Credential) :
    (mergeCredEntry ec tc).1 = tc.1 := by
  cases h : (if tc.2.preserveInstance then lookupCred ec tc.1 else none) with
  | none =>
    simp only [mergeCredEntry, h]
    by_cases hm : tc.2.typeMarker <;> simp [hm]
  | some e => simp [mergeCredEntry, h]

theorem cleanRepoCredentials_keys (rc : CredMap) :
    (cleanRepoCredentials rc).map Prod.fst = rc.map Prod.fst := by
  unfold cleanRepoCredentials
  rw [List.map_map]
  apply List.map_congr_left
  intro tc _
  by_cases h : tc.2.preserveInstance <;> simp [h]

theorem cleanRepoCredentials_idem (rc : CredMap) :
    cleanRepoCredentials (cleanRepoCredentials rc) = cleanRepoCredentials rc := by
  unfold cleanRepoCredentials
  rw [List.map_map]
  apply List.map_congr_left
  intro tc _
  by_cases h : tc.2.preserveInstance <;> simp [h, cleanCredential]

theorem mergeOneNode_of_match {es : List Node} {r e : Node}
    (h : findByKey es (nodeKey r) = some e) :
    mergeOneNode es r = { r with
      id := e.id,
      webhookId := if strTruthy e.webhookId then e.webhookId else r.webhookId,
      position := if jTruthy e.position then e.position else r.position,
      credentials := mergeCredentials r.credentials e.credentials } := by
  unfold mergeOneNode
  simp only [h]
  by_cases h1 : strTruthy e.webhookId <;> by_cases h2 : jTruthy e.position <;>
    simp [h1, h2]

theorem mergeOneNode_of_none {es : List Node} {r : Node}
    (h : findByKey es (nodeKey r) = none) :
    mergeOneNode es r = prepareNewNode r := by
  unfold mergeOneNode
  simp only [h]

theorem findByKey_mem {es : List Node} {k : String} {e : Node}
    (h : findByKey es k = some e) : e ∈ es := by
  induction es using List.reverseRecOn with
  | nil => simp [findByKey] at h
  | append_singleton xs x ih =>
    unfold findByKey at h
    rw [List.foldl_append] at h
    simp only [List.foldl_cons, List.foldl_nil] at h
    by_cases hx : nodeKey x = k
    · simp only [hx, if_true] at h
      cases h
      simp
    · simp only [hx, if_false] at h
      exact List.mem_append_left _ (ih h)

theorem prepareNewNode_key (r : Node) : nodeKey (prepareNewNode r) = nodeKey r := rfl

theorem mergeOneNode_key (es : List Node) (r : Node) :
    nodeKey (mergeOneNode es r) = nodeKey r := by
  cases h : findByKey es (nodeKey r) with
  | some e => rw [mergeOneNode_of_match h]; rfl
  | none => rw [mergeOneNode_of_none h]; rfl

theorem prepareNewNode_idem (r : Node) :
    prepareNewNode (prepareNewNode r) = prepareNewNode r := by
  obtain ⟨rid, rname, rtype, rpar, rcred, rweb, rpos⟩ := r
  cases rcred <;> simp [prepareNewNode, cleanRepoCredentials_idem]

theorem mergeCredEntry_idem {ec : CredMap}
    (hA : ∀ x ∈ ec, x.2.typeMarker = false) (tc : String × Credential) :
    mergeCredEntry ec (mergeCredEntry ec tc) = mergeCredEntry ec tc := by
  by_cases hpi : tc.2.preserveInstance
  · cases hl : lookupCred ec tc.1 with
    | some e =>
      have heM : e.typeMarker = false := hA (tc.1, e) (lookupCred_some hl)
      by_cases hpe : e.preserveInstance
      · simp [mergeCredEntry, hpi, hl, hpe]
      · simp [mergeCredEntry, hpi, hl, hpe, heM]
    | none =>
      by_cases htm : tc.2.typeMarker
      · simp [mergeCredEntry, hpi, hl, htm, cleanCredential]
      · simp [mergeCredEntry, hpi, hl, htm]
  · by_cases htm : tc.2.typeMarker
    · simp [mergeCredEntry, hpi, htm, cleanCredential]
    · simp [mergeCredEntry, hpi, htm]

theorem mergeCred_self {ec : CredMap} (hok : credsOk ec = true) :
    ec.map (mergeCredEntry ec) = ec := by
  have hA : ∀ x ∈ ec, x.2.typeMarker = false := by
    intro x hx
    have := (Bool.and_eq_true _ _ |>.mp hok).1
    exact of_decide_eq_true (by simpa using List.all_eq_true.mp this x hx)
  have hN : (ec.map Prod.fst).Nodup :=
    of_decide_eq_true (Bool.and_eq_true _ _ |>.mp hok).2
  conv_rhs => rw [← List.map_id ec]
  apply List.map_congr_left
  intro tc hm
  by_cases hpi : tc.2.preserveInstance
  · have hl : lookupCred ec tc.1 = some tc.2 :=
      lookupCred_of_mem_nodup hN (by simpa using hm)
    simp [mergeCredEntry, hpi, hl]
  · simp [mergeCredEntry, hpi, hA tc hm]

theorem mergeCredentials_idem {r e : Option CredMap}
    (hok : ∀ ec, e = some ec → credsOk ec = true) :
    mergeCredentials (mergeCredentials r e) e = mergeCredentials r e := by
  have hA : ∀ ec, e = some ec → ∀ x ∈ ec, x.2.typeMarker = false := by
    intro ec he x hx
    have := (Bool.and_eq_true _ _ |>.mp (hok ec he)).1
    exact of_decide_eq_true (by simpa using List.all_eq_true.mp this x hx)
  cases r with
  | none =>
    cases e with
    | none => rfl
    | some ec => simp [mergeCredentials, mergeCred_self (hok ec rfl)]
  | some rc =>
    cases e with
    | none => simp [mergeCredentials, cleanRepoCredentials_idem]
    | some ec =>
      simp only [mergeCredentials, List.map_map]
      congr 1
      apply List.map_congr_left
      intro tc _
      exact mergeCredEntry_idem (hA ec rfl) tc

theorem nodeCredsOk_spec {e : Node} (h : nodeCredsOk e = true) :
    ∀ ec, e.credentials = some ec → credsOk ec = true := by
  intro ec hec
  unfold nodeCredsOk at h
  rw [hec] at h
  exact h

theorem mergeOneNode_idem {es : List Node} (hok : ∀ x ∈ es, nodeCredsOk x = true)
    (r : Node) : mergeOneNode es (mergeOneNode es r) = mergeOneNode es r := by
  obtain ⟨rid, rname, rtype, rpar, rcred, rweb, rpos⟩ := r
  cases h : findByKey es (nodeKey ⟨rid, rname, rtype, rpar, rcred, rweb, rpos⟩) with
  | none =>
    rw [mergeOneNode_of_none h]
    have h2 : findByKey es
        (nodeKey (prepareNewNode ⟨rid, rname, rtype, rpar, rcred, rweb, rpos⟩)) = none := by
      rw [prepareNewNode_key]; exact h
    rw [mergeOneNode_of_none h2, prepareNewNode_idem]
  | some e =>
    have hcred := nodeCredsOk_spec (hok e (findByKey_mem h))
    rw [mergeOneNode_of_match h]
    have h2 : findByKey es (nodeKey (Node.mk e.id rname rtype rpar
        (mergeCredentials rcred e.credentials)
        (if strTruthy e.webhookId then e.webhookId else rweb)
        (if jTruthy e.position then e.position else rpos))) = some e := h
    rw [mergeOneNode_of_match h2]
    by_cases h3 : strTruthy e.webhookId <;> by_cases h4 : jTruthy e.position <;>
      simp [h3, h4, mergeCredentials_idem hcred]

theorem mergeNodes_idem {rs es : List Node} (hok : ∀ x ∈ es, nodeCredsOk x = true) :
    mergeNodes (mergeNodes rs es) es = mergeNodes rs es := by
  unfold mergeNodes
  rw [List.map_map]
  apply List.map_congr_left
  intro r _
  exact mergeOneNode_idem hok r

/-! ## Claim C3: idempotence of the merge engine -/

/-- Concrete repository-side fixtures for the merge claims: a node whose
credential is a preserve-instance placeholder. -/
def repoCredC3 : Credential :=
  { id := none, name := some "Repo Cred", preserveInstance := true, typeMarker := false }

/-- A remote credential that itself carries a truthy `_type` property (a
degenerate remote record; genuine server credentials never do). -/
def oddInstCredC3 : Credential :=
  { id := some "99", name := some "Instance Cred", preserveInstance := false, typeMarker := true }

/-- A well-formed remote credential (server reference with an id). -/
def instCredC3 : Credential :=
  { id := some "99", name := some "Instance Cred", preserveInstance := false, typeMarker := false }

def repoNodeC3 : Node :=
  { id := none, name := "Call API", type := "n8n-nodes-base.httpRequest",
    parameters := none, credentials := some [("httpHeaderAuth", repoCredC3)],
    webhookId := none, position := none }

def oddInstNodeC3 : Node :=
  { id := some "n1", name := "Call API", type := "n8n-nodes-base.httpRequest",
    parameters := none, credentials := some [("httpHeaderAuth", oddInstCredC3)],
    webhookId := none, position := none }

def instNodeC3 : Node :=
  { id := some "n1", name := "Call API", type := "n8n-nodes-base.httpRequest",
    parameters := none, credentials := some [("httpHeaderAuth", instCredC3)],
    webhookId := none, position := none }

def repoWfC3 : Workflow :=
  { id := none, name := "Main", nodes := some [repoNodeC3], connections := none,
    settings := none, createdAt := none, updatedAt := none, meta := none,
    credentials := none }

def oddInstWfC3 : Workflow :=
  { id := some "w1", name := "Main", nodes := some [oddInstNodeC3], connections := none,
    settings := none, createdAt := none, updatedAt := none, meta := none,
    credentials := none }

def instWfC3 : Workflow :=
  { id := some "w1", name := "Main", nodes := some [instNodeC3], connections := none,
    settings := none, createdAt := none, updatedAt := none, meta := none,
    credentials := none }

/-- Claim C3, counterexample.  As literally stated — for every repository
record and every remote record — idempotence fails: against a remote record
whose bound credential carries a truthy `_type` property, the first merge
preserves that credential into the merged record and the second merge then
takes the `_type`-cleaning branch on it, stripping its identifier.  The
claim quantifies over all remote records and therefore fails on this one. -/
theorem c3_counterexample :
    mergeWorkflows (mergeWorkflows repoWfC3 oddInstWfC3) oddInstWfC3 ≠
      mergeWorkflows repoWfC3 oddInstWfC3 := by decide

/-- Claim C3, amended: the Merge Engine is idempotent for every repository
record and every remote record whose node credentials are well-formed server
data, i.e. JSON objects with unique credential-type keys that never carry
the repository-only `_type` marker. -/
theorem c3_merge_idempotent (r e : Workflow) (hok : remoteNodesOk e = true) :
    mergeWorkflows (mergeWorkflows r e) e = mergeWorkflows r e := by
  obtain ⟨rid, rname, rnodes, rconn, rset, rcre, rupd, rmeta, rcredl⟩ := r
  obtain ⟨eid, ename, enodes, econn, eset, ecre, eupd, emeta, ecredl⟩ := e
  unfold remoteNodesOk at hok
  simp only at hok
  rcases enodes with _ | es2 <;>
    rcases emeta with _ | m <;>
      rcases rnodes with _ | rs2 <;>
        by_cases h1 : strTruthy eid <;>
          by_cases h2 : strTruthy ecre <;>
            by_cases h3 : strTruthy eupd <;>
              first
                | (by_cases h4 : strTruthy m.instanceId <;>
                    simp [mergeWorkflows, h1, h2, h3, h4,
                      mergeNodes_idem (List.all_eq_true.mp hok)])
                | simp [mergeWorkflows, h1, h2, h3,
                    mergeNodes_idem (List.all_eq_true.mp hok)]
                | (by_cases h4 : strTruthy m.instanceId <;>
                    simp [mergeWorkflows, h1, h2, h3, h4])
                | simp [mergeWorkflows, h1, h2, h3]

/-- Claim C3, witness: the amended idempotence at a concrete repository
record and a concrete well-formed remote record. -/
theorem c3_merge_idempotent_witness :
    remoteNodesOk instWfC3 = true ∧
      mergeWorkflows (mergeWorkflows repoWfC3 instWfC3) instWfC3 =
        mergeWorkflows repoWfC3 instWfC3 :=
  ⟨by decide, c3_merge_idempotent repoWfC3 instWfC3 (by decide)⟩

/-! ## Claim C4: preserve-instance credentials are taken from the remote node -/

/-- Claim C4: whenever a repository node that is matched (by the
name-and-type key) to a remote node carries a preserve-instance-marked
placeholder for a credential type and the remote node has a credential of
that type, the merged node binds exactly the remote credential for that
type — the whole entry, server-assigned identifier included. -/
theorem c4_preserve_instance_credential
    (existingNodes : List Node) (repoNode existingNode : Node)
    (rc ec : CredMap) (t : String) (c ce : Credential)
    (hmatch : findByKey existingNodes (nodeKey repoNode) = some existingNode)
    (hrc : repoNode.credentials = some rc)
    (hc : lookupCred rc t = some c)
    (hpi : c.preserveInstance = true)
    (hec : existingNode.credentials = some ec)
    (hce : lookupCred ec t = some ce) :
    ∃ mc, (mergeOneNode existingNodes repoNode).credentials = some mc ∧
      lookupCred mc t = some ce := by
  rw [mergeOneNode_of_match hmatch]
  refine ⟨(rc.map (mergeCredEntry ec)), ?_, ?_⟩
  · simp [hrc, hec, mergeCredentials]
  · unfold lookupCred
    rw [find?_map_comm (mergeCredEntry ec) (mergeCredEntry_key ec)]
    unfold lookupCred at hc
    cases hf : rc.find? (fun kv => kv.1 = t) with
    | none => rw [hf] at hc; cases hc
    | some kv =>
      rw [hf] at hc
      simp only [Option.map_some'] at hc
      obtain ⟨hk, _⟩ := find?_key_eq hf
      obtain ⟨k1, c1⟩ := kv
      simp only at hk hc
      subst hk
      injection hc with hc2
      subst hc2
      simp only [Option.map_some']
      simp [mergeCredEntry, hpi, hce]

/-- Claim C4, witness at concrete nodes: the placeholder is replaced by the
remote credential entry verbatim. -/
theorem c4_preserve_instance_credential_witness :
    findByKey [instNodeC3] (nodeKey repoNodeC3) = some instNodeC3 ∧
    repoNodeC3.credentials = some [("httpHeaderAuth", repoCredC3)] ∧
    lookupCred [("httpHeaderAuth", repoCredC3)] "httpHeaderAuth" = some repoCredC3 ∧
    repoCredC3.preserveInstance = true ∧
    instNodeC3.credentials = some [("httpHeaderAuth", instCredC3)] ∧
    lookupCred [("httpHeaderAuth", instCredC3)] "httpHeaderAuth" = some instCredC3 ∧
    ∃ mc, (mergeOneNode [instNodeC3] repoNodeC3).credentials = some mc ∧
      lookupCred mc "httpHeaderAuth" = some instCredC3 :=
  ⟨by decide, by decide, by decide, by decide, by decide, by decide,
    c4_preserve_instance_credential [instNodeC3] repoNodeC3 instNodeC3
      [("httpHeaderAuth", repoCredC3)] [("httpHeaderAuth", instCredC3)]
      "httpHeaderAuth" repoCredC3 instCredC3
      (by decide) (by decide) (by decide) (by decide) (by decide) (by decide)⟩

/-! ## Claim C5: server-owned node fields -/

/-- Claim C5, counterexample.  The claim says the merged node's identifier,
webhook identifier and canvas position each equal the remote node's value.
The code overwrites the webhook identifier (and the position) only when the
remote node has a truthy one: with a repository node carrying a webhook
identifier and a matched remote node carrying none, the merged node keeps
the repository webhook identifier, which differs from the remote value. -/
def repoNodeC5 : Node :=
  { id := none, name := "Hook", type := "n8n-nodes-base.webhook",
    parameters := none, credentials := none,
    webhookId := some "repo-webhook", position := none }

def instNodeC5 : Node :=
  { id := some "n7", name := "Hook", type := "n8n-nodes-base.webhook",
    parameters := none, credentials := none, webhookId := none, position := none }

theorem c5_counterexample :
    findByKey [instNodeC5] (nodeKey repoNodeC5) = some instNodeC5 ∧
    (mergeOneNode [instNodeC5] repoNodeC5).webhookId = some "repo-webhook" ∧
    instNodeC5.webhookId = none := by decide

/-- Claim C5, amended: for a repository node with a matched remote
counterpart, the merged node's identifier always equals the remote node's
identifier, and its webhook identifier and canvas position equal the remote
node's whenever the remote node carries a truthy one (otherwise the
repository value survives). -/
theorem c5_server_owned_fields (existingNodes : List Node) (repoNode existingNode : Node)
    (hmatch : findByKey existingNodes (nodeKey repoNode) = some existingNode) :
    (mergeOneNode existingNodes repoNode).id = existingNode.id ∧
    (strTruthy existingNode.webhookId = true →
      (mergeOneNode existingNodes repoNode).webhookId = existingNode.webhookId) ∧
    (jTruthy existingNode.position = true →
      (mergeOneNode existingNodes repoNode).position = existingNode.position) := by
  rw [mergeOneNode_of_match hmatch]
  refine ⟨rfl, ?_, ?_⟩
  · intro h
    simp [h]
  · intro h
    simp [h]

/-- Claim C5, witness: a remote node carrying all three server-owned fields
transfers them onto the merged node. -/
def repoNodeC5w : Node :=
  { id := some "old", name := "Hook", type := "n8n-nodes-base.webhook",
    parameters := none, credentials := none,
    webhookId := some "repo-webhook", position := some (J.arr [J.num 1, J.num 2]) }

def instNodeC5w : Node :=
  { id := some "n7", name := "Hook", type := "n8n-nodes-base.webhook",
    parameters := none, credentials := none,
    webhookId := some "inst-webhook", position := some (J.arr [J.num 400, J.num 300]) }

theorem c5_server_owned_fields_witness :
    findByKey [instNodeC5w] (nodeKey repoNodeC5w) = some instNodeC5w ∧
    ((mergeOneNode [instNodeC5w] repoNodeC5w).id = instNodeC5w.id ∧
     (strTruthy instNodeC5w.webhookId = true →
       (mergeOneNode [instNodeC5w] repoNodeC5w).webhookId = instNodeC5w.webhookId) ∧
     (jTruthy instNodeC5w.position = true →
       (mergeOneNode [instNodeC5w] repoNodeC5w).position = instNodeC5w.position)) :=
  ⟨by decide, c5_server_owned_fields [instNodeC5w] repoNodeC5w instNodeC5w (by decide)⟩

/-! ## Claim C10: merged credential types are the repository-side ones -/

/-- Claim C10: when a matched repository node carries a credentials mapping
(possibly empty), the merged node's credential types are exactly the
repository-side types, in repository order — so a type bound only remotely
is absent; when the repository node has no credentials mapping at all, the
remote node's credentials object survives unchanged. -/
theorem c10_credential_domain (existingNodes : List Node) (repoNode existingNode : Node)
    (hmatch : findByKey existingNodes (nodeKey repoNode) = some existingNode) :
    (∀ rc, repoNode.credentials = some rc →
      ∃ mc, (mergeOneNode existingNodes repoNode).credentials = some mc ∧
        mc.map Prod.fst = rc.map Prod.fst) ∧
    (repoNode.credentials = none →
      (mergeOneNode existingNodes repoNode).credentials = existingNode.credentials) := by
  rw [mergeOneNode_of_match hmatch]
  constructor
  · intro rc hrc
    cases hec : existingNode.credentials with
    | none =>
      refine ⟨cleanRepoCredentials rc, ?_, cleanRepoCredentials_keys rc⟩
      simp [hrc, hec, mergeCredentials]
    | some ec =>
      refine ⟨rc.map (mergeCredEntry ec), ?_, ?_⟩
      · simp [hrc, hec, mergeCredentials]
      · rw [List.map_map]
        apply List.map_congr_left
        intro tc _
        exact mergeCredEntry_key ec tc
  · intro hrc
    simp [hrc, mergeCredentials]

/-- Claim C10, witness: a repository node with one credential type matched
to a remote node binding two types keeps exactly the repository-side type;
and with no repository credentials the remote mapping survives. -/
def instNodeC10 : Node :=
  { id := some "n1", name := "Call API", type := "n8n-nodes-base.httpRequest",
    parameters := none,
    credentials := some [("httpHeaderAuth", instCredC3),
      ("extraRemoteOnlyAuth", instCredC3)],
    webhookId := none, position := none }

theorem c10_credential_domain_witness :
    findByKey [instNodeC10] (nodeKey repoNodeC3) = some instNodeC10 ∧
    ((∀ rc, repoNodeC3.credentials = some rc →
      ∃ mc, (mergeOneNode [instNodeC10] repoNodeC3).credentials = some mc ∧
        mc.map Prod.fst = rc.map Prod.fst) ∧
     (repoNodeC3.credentials = none →
      (mergeOneNode [instNodeC10] repoNodeC3).credentials = instNodeC10.credentials)) :=
  ⟨by decide, c10_credential_domain [instNodeC10] repoNodeC3 instNodeC10 (by decide)⟩

/-! ## Claim C7: the create path and credential placeholders -/

/-- A repository credential placeholder carrying both repository-only
markers. -/
def credC7 : Credential :=
  { id := none, name := some "Prod HTTP Auth", preserveInstance := true, typeMarker := true }

def nodeC7 : Node :=
  { id := none, name := "Call API", type := "n8n-nodes-base.httpRequest",
    parameters := none, credentials := some [("httpHeaderAuth", credC7)],
    webhookId := none, position := none }

def wfC7 : Workflow :=
  { id := none, name := "New Workflow", nodes := some [nodeC7], connections := none,
    settings := none, createdAt := none, updatedAt := none, meta := none,
    credentials := none }

/-- Claim C7 evaluated at the failing input.  `handleCreate` applies the
node-level `prepareNewNode` to the whole workflow object; a workflow record
carries no top-level `credentials` property, so the create payload is the
workflow unchanged and the node-level placeholder markers (preserve-instance
flag and embedded type marker) are still present in the payload.  The last
conjunct shows that applying the same helper at the node level — what the
surrounding code and comment intend — would have changed the node. -/
theorem c7_code_bug_markers_survive :
    handleCreatePayload wfC7 = wfC7 ∧
    (handleCreatePayload wfC7).nodes = some [nodeC7] ∧
    nodeC7.credentials = some [("httpHeaderAuth", credC7)] ∧
    credC7.preserveInstance = true ∧
    credC7.typeMarker = true ∧
    prepareNewNode nodeC7 ≠ nodeC7 := by decide

/-! ## Claim C8: a create response without a usable identifier -/

/-- Claim C8: when a record is absent from the remote snapshot and the
create response carries no usable identifier, the step is an error for that
record alone, the name→identifier map is left exactly as it was (in
particular no entry with an undefined value is inserted), and the loop
continues with the remaining records, having only counted the error. -/
theorem c8_create_without_id (api : String → CreateResp)
    (existingByName : List (String × Option String)) (st : SyncState) (wd : WfRec)
    (rest : List WfRec)
    (habsent : jsMapGet existingByName wd.nameLower = none)
    (hnoid : respNewId (api wd.nameLower) = none) :
    processWorkflow api existingByName st wd =
      ({ st with writes := st.writes ++ [updateWorkflowReferences wd.workflow st.nameToIdMap] },
        true) ∧
    (processWorkflow api existingByName st wd).1.nameToIdMap = st.nameToIdMap ∧
    syncLoop api existingByName st (wd :: rest) =
      syncLoop api existingByName
        { nameToIdMap := st.nameToIdMap,
          results := { st.results with errors := st.results.errors + 1 },
          writes := st.writes ++ [updateWorkflowReferences wd.workflow st.nameToIdMap] }
        rest := by
  have h1 : processWorkflow api existingByName st wd =
      ({ st with writes := st.writes ++ [updateWorkflowReferences wd.workflow st.nameToIdMap] },
        true) := by
    simp [processWorkflow, habsent, hnoid]
  refine ⟨h1, by rw [h1], ?_⟩
  simp only [syncLoop, h1]
  simp

/-- Claim C8, witness: a concrete run step whose create response has no
identifier anywhere. -/
def wfC8 : Workflow :=
  { id := none, name := "Main", nodes := none, connections := none,
    settings := none, createdAt := none, updatedAt := none, meta := none,
    credentials := none }

def wfRecC8 : WfRec :=
  { name := "Main", nameLower := "main", workflow := wfC8, dependencies := [] }

def apiC8 : String → CreateResp := fun _ => { id := none, data := some { id := some "" } }

def stC8 : SyncState :=
  { nameToIdMap := [("login", some "7")], results := { created := 0, updated := 0, errors := 0 },
    writes := [] }

theorem c8_create_without_id_witness :
    jsMapGet ([] : List (String × Option String)) wfRecC8.nameLower = none ∧
    respNewId (apiC8 wfRecC8.nameLower) = none ∧
    (processWorkflow apiC8 [] stC8 wfRecC8 =
      ({ stC8 with
        writes := stC8.writes ++ [updateWorkflowReferences wfRecC8.workflow stC8.nameToIdMap] },
        true) ∧
     (processWorkflow apiC8 [] stC8 wfRecC8).1.nameToIdMap = stC8.nameToIdMap ∧
     syncLoop apiC8 [] stC8 [wfRecC8] =
       syncLoop apiC8 []
         { nameToIdMap := stC8.nameToIdMap,
           results := { stC8.results with errors := stC8.results.errors + 1 },
           writes := stC8.writes ++
             [updateWorkflowReferences wfRecC8.workflow stC8.nameToIdMap] }
         []) :=
  ⟨by decide, by decide, c8_create_without_id apiC8 [] stC8 wfRecC8 [] (by decide) (by decide)⟩

/-! ## Claim C9: sub-workflow reference rewriting -/

theorem jsGet_set_self : ∀ (fs : List (String × J)) (k : String) (v : J),
    jsGet (jsMapSet fs k v) k = some v := by
  intro fs k v
  induction fs with
  | nil => simp [jsMapSet, jsGet]
  | cons x xs ih =>
    by_cases hx : x.1 = k
    · have hany : (x :: xs).any (fun kv => kv.1 = k) = true := by simp [hx]
      rw [jsMapSet, if_pos hany]
      simp [jsGet, List.find?_cons, hx]
    · by_cases hxs : xs.any (fun kv => kv.1 = k) = true
      · have hany : (x :: xs).any (fun kv => kv.1 = k) = true := by
          simp only [List.any_cons, hxs, Bool.or_true]
        rw [jsMapSet, if_pos hany]
        have ihh : jsGet (jsMapSet xs k v) k = some v := ih
        rw [jsMapSet, if_pos hxs] at ihh
        unfold jsGet at ihh ⊢
        simp only [List.map_cons, if_neg hx]
        rw [List.find?_cons_of_neg]
        · exact ihh
        · simpa using hx
      · have hany : ¬ (x :: xs).any (fun kv => kv.1 = k) = true := by
          simp only [List.any_cons, Bool.or_eq_true]
          rintro (h | h)
          · exact hx (by simpa using h)
          · exact hxs h
        rw [jsMapSet, if_neg hany]
        have ihh : jsGet (jsMapSet xs k v) k = some v := ih
        rw [jsMapSet, if_neg (by simpa using hxs)] at ihh
        unfold jsGet at ihh ⊢
        rw [List.cons_append, List.find?_cons_of_neg]
        · exact ihh
        · simpa using hx

theorem jGet_set_self {fs : List (String × J)} (k : String) (x : J) :
    jGet (jSet (J.obj fs) k x) k = some x := by
  simp [jSet, jGet, jsGet_set_self]

theorem jGet_some_obj {v : J} {k : String} {w : J} (h : jGet v k = some w) :
    ∃ fs, v = J.obj fs := by
  cases v <;> simp [jGet] at h ⊢

/-- Claim C9: before a record is written the orchestrator runs
`updateWorkflowReferences` over its nodes (first conjunct: the rewritten
record maps each node through `updateRefNode`); for a sub-workflow-execution
node whose cached display name, lower-cased, maps to a non-empty identifier
in the current name→identifier map, the rewritten node's workflow-reference
`value` is exactly that identifier, and a node whose cached name has no
(defined) entry in the map is left unchanged. -/
theorem c9_reference_rewrite (m : NameToId) (w : Workflow) (ns : List Node)
    (hns : w.nodes = some ns) :
    (updateWorkflowReferences w m).nodes = some (ns.map (updateRefNode m)) ∧
    (∀ node : Node, node.type = execWorkflowType →
      ∀ pk wp s, selectWorkflowParam (jsOrEmptyObj node.parameters) = some pk →
        jGet (jsOrEmptyObj node.parameters) pk = some wp →
        jGet wp "cachedResultName" = some (J.str s) →
        s ≠ "" →
        ((∀ i, mapGetId m s.toLower = some i → i ≠ "" →
            jGet ((jGet (jsOrEmptyObj (updateRefNode m node).parameters) pk).getD J.null)
              "value" = some (J.str i)) ∧
          (mapGetId m s.toLower = none → updateRefNode m node = node))) := by
  constructor
  · simp [updateWorkflowReferences, hns]
  · intro node htype pk wp s hsel hwp hcn hs
    constructor
    · intro i hi hine
      obtain ⟨pfs, hpfs⟩ := jGet_some_obj hwp
      obtain ⟨wfs, hwfs⟩ := jGet_some_obj hcn
      by_cases hv : jGet wp "value" = some (J.str i)
      · have hnode : updateRefNode m node = node := by
          simp [updateRefNode, htype, hsel, hwp, hcn, hs, hi, hine, hv]
        rw [hnode, hwp]
        simpa using hv
      · have hnode : updateRefNode m node =
            { node with parameters := some (jSet (jsOrEmptyObj node.parameters) pk (jSet wp "value" (J.str i))) } := by
          simp [updateRefNode, htype, hsel, hwp, hcn, hs, hi, hine, hv]
        rw [hnode]
        have htr : jsTruthy (jSet (jsOrEmptyObj node.parameters) pk
            (jSet wp "value" (J.str i))) = true := by
          rw [hpfs]
          simp [jSet, jsTruthy]
        have hout : jsOrEmptyObj (some (jSet (jsOrEmptyObj node.parameters) pk (jSet wp "value" (J.str i)))) = jSet (jsOrEmptyObj node.parameters) pk (jSet wp "value" (J.str i)) := by
          show (if jsTruthy (jSet (jsOrEmptyObj node.parameters) pk (jSet wp "value" (J.str i))) = true then jSet (jsOrEmptyObj node.parameters) pk (jSet wp "value" (J.str i)) else J.obj []) = jSet (jsOrEmptyObj node.parameters) pk (jSet wp "value" (J.str i))
          exact if_pos htr
        show jGet ((jGet (jsOrEmptyObj (some (jSet (jsOrEmptyObj node.parameters) pk (jSet wp "value" (J.str i))))) pk).getD J.null) "value" = some (J.str i)
        rw [hout, hpfs, jGet_set_self]
        simp only [Option.getD_some]
        rw [hwfs, jGet_set_self]
    · intro hnone
      simp [updateRefNode, htype, hsel, hwp, hcn, hs, hnone]

/-- Claim C9, witness: a concrete map and execute-workflow node; the
reference value is rewritten to the identifier learned for the cached
name. -/
def paramsC9 : J :=
  J.obj [("workflowId",
    J.obj [("cachedResultName", J.str "Login"), ("value", J.str "stale-id")])]

def nodeC9 : Node :=
  { id := none, name := "Run Login", type := "n8n-nodes-base.executeWorkflow",
    parameters := some paramsC9, credentials := none, webhookId := none, position := none }

def wfC9 : Workflow :=
  { id := none, name := "Main", nodes := some [nodeC9], connections := none,
    settings := none, createdAt := none, updatedAt := none, meta := none,
    credentials := none }

def mapC9 : NameToId := [("login", some "101")]

/-! ## Claim C6: no-op detection ignores credential identifiers

The plan: the spec-side relation `credIdEquiv` (two values structurally
identical except for credential identifier sub-fields) is shown to imply
equality after the detector's `removeCredentialIds` normalization; the
detector then reports no node changes, and with equal name, connections and
settings the aggregate `hasChanges` is false. -/

theorem removeFields_cons_id {b : Bool} {k : String} {v : J} {rest : List (String × J)}
    (h : k = "id" ∧ b = true) :
    removeCredentialIdsFields b ((k, v) :: rest) = removeCredentialIdsFields b rest := by
  simp [removeCredentialIdsFields, h]

theorem removeFields_cons {b : Bool} {k : String} {v : J} {rest : List (String × J)}
    (h : ¬ (k = "id" ∧ b = true)) :
    removeCredentialIdsFields b ((k, v) :: rest) =
      (k, removeCredentialIds v) :: removeCredentialIdsFields b rest := by
  simp only [removeCredentialIdsFields, if_neg h]

theorem ceqFields_skipL {bf bg : Bool} {k : String} {v : J} {fs gs : List (String × J)}
    (h : k = "id" ∧ bf = true) :
    credIdEquivFields bf bg ((k, v) :: fs) gs = credIdEquivFields bf bg fs gs := by
  obtain ⟨rfl, rfl⟩ := h
  rw [credIdEquivFields.eq_def]
  simp

theorem ceqFields_skipR {bf bg : Bool} {k : String} {v : J} {fs : List (String × J)}
    {k2 : String} {v2 : J} {gs2 : List (String × J)}
    (h : ¬ (k = "id" ∧ bf = true)) (h2 : k2 = "id" ∧ bg = true) :
    credIdEquivFields bf bg ((k, v) :: fs) ((k2, v2) :: gs2) =
      credIdEquivFields bf bg ((k, v) :: fs) gs2 := by
  rw [credIdEquivFields.eq_def]
  simp only [if_neg h]
  simp only [if_pos h2]

theorem ceqFields_cons {bf bg : Bool} {k : String} {v : J} {fs : List (String × J)}
    {k2 : String} {v2 : J} {gs2 : List (String × J)}
    (h : ¬ (k = "id" ∧ bf = true)) (h2 : ¬ (k2 = "id" ∧ bg = true)) :
    credIdEquivFields bf bg ((k, v) :: fs) ((k2, v2) :: gs2) =
      (decide (k = k2) && credIdEquiv v v2 && credIdEquivFields bf bg fs gs2) := by
  rw [credIdEquivFields.eq_def]
  simp only [if_neg h]
  simp only [if_neg h2]

theorem credIdEquiv_removeCredentialIds :
    ∀ a b : J, credIdEquiv a b = true → removeCredentialIds a = removeCredentialIds b := by
  refine credIdEquiv.induct
    (fun a b => credIdEquiv a b = true → removeCredentialIds a = removeCredentialIds b)
    (fun bf bg fs gs => credIdEquivFields bf bg fs gs = true →
      removeCredentialIdsFields bf fs = removeCredentialIdsFields bg gs)
    (fun xs ys => credIdEquivList xs ys = true →
      removeCredentialIdsList xs = removeCredentialIdsList ys)
    ?_ ?_ ?_ ?_ ?_ ?_ ?_ ?_ ?_ ?_ ?_ ?_ ?_ ?_ ?_ ?_
  · intro _
    rfl
  · intro a b h
    simp only [credIdEquiv] at h
    simp [of_decide_eq_true h]
  · intro a b h
    simp only [credIdEquiv] at h
    simp [of_decide_eq_true h]
  · intro a b h
    simp only [credIdEquiv] at h
    simp [of_decide_eq_true h]
  · intro xs ys ih h
    simp only [credIdEquiv] at h
    simp [removeCredentialIds, ih h]
  · intro fs gs ih h
    simp only [credIdEquiv] at h
    simp [removeCredentialIds, ih h]
  · intro x y h1 h2 h3 h4 h5 h6 h
    exfalso
    cases x <;> cases y <;>
      first
        | exact h1 rfl rfl
        | exact h2 _ _ rfl rfl
        | exact h3 _ _ rfl rfl
        | exact h4 _ _ rfl rfl
        | exact h5 _ _ rfl rfl
        | exact h6 _ _ rfl rfl
        | simp [credIdEquiv] at h
  · intro bf bg k v fs gs hid ih h
    rw [ceqFields_skipL hid] at h
    rw [removeFields_cons_id hid]
    exact ih h
  · intro bf bg k v fs hnid k2 v2 gs2 hid2 ih h
    rw [ceqFields_skipR hnid hid2] at h
    rw [removeFields_cons_id hid2]
    exact ih h
  · intro bf bg k v fs hnid k2 v2 gs2 hnid2 ih1 ih2 h
    rw [ceqFields_cons hnid hnid2] at h
    rcases (Bool.and_eq_true _ _).mp h with ⟨hkv, htl⟩
    rcases (Bool.and_eq_true _ _).mp hkv with ⟨hk, hv⟩
    rw [removeFields_cons hnid, removeFields_cons hnid2]
    rw [of_decide_eq_true hk, ih1 hv, ih2 htl]
  · intro bf bg k v fs hnid h
    rw [credIdEquivFields.eq_def] at h
    simp [hnid] at h
  · intro bf bg k2 snd gs2 ih h
    rw [credIdEquivFields.eq_def] at h
    simp only [Bool.and_eq_true, decide_eq_true_eq] at h
    rcases h with ⟨⟨hk2, hbg⟩, htl⟩
    rw [removeFields_cons_id ⟨hk2, hbg⟩]
    exact ih htl
  · intro bf bg _
    rfl
  · intro _
    rfl
  · intro x xs y ys ih1 ih2 h
    rw [credIdEquivList.eq_def] at h
    simp only [Bool.and_eq_true] at h
    simp [removeCredentialIdsList, ih1 h.1, ih2 h.2]
  · intro x y h1 h2 h
    exfalso
    cases x <;> cases y <;>
      first
        | exact h1 rfl rfl
        | exact h2 _ _ _ _ rfl rfl
        | simp [credIdEquivList] at h

/-- The entry relation carried through the detector maps: equal identity
keys and no detected parameter change. -/
def NRel (a b : String × Node) : Prop :=
  a.1 = b.1 ∧ nodeParametersChanged a.2 b.2 = false

theorem forall₂_map_both {α β γ δ : Type} {R : α → β → Prop} {S : γ → δ → Prop}
    (f : α → γ) (g : β → δ) (h : ∀ a b, R a b → S (f a) (g b)) :
    ∀ {l1 : List α} {l2 : List β}, List.Forall₂ R l1 l2 →
      List.Forall₂ S (l1.map f) (l2.map g) := by
  intro l1 l2 hf
  induction hf with
  | nil => simp
  | cons hab htl ih =>
    simp only [List.map_cons]
    exact List.Forall₂.cons (h _ _ hab) ih

theorem nrel_any {m1 m2 : List (String × Node)} (h : List.Forall₂ NRel m1 m2)
    (k : String) :
    m1.any (fun kv => kv.1 = k) = m2.any (fun kv => kv.1 = k) := by
  induction h with
  | nil => rfl
  | cons hab htl ih =>
    simp only [List.any_cons, ih, hab.1]

theorem nrel_jsMapSet {m1 m2 : List (String × Node)} (h : List.Forall₂ NRel m1 m2)
    {p q : String × Node} (hpq : NRel p q) :
    List.Forall₂ NRel (jsMapSet m1 p.1 p.2) (jsMapSet m2 q.1 q.2) := by
  obtain ⟨hk, hch⟩ := hpq
  unfold jsMapSet
  rw [hk, nrel_any h q.1]
  by_cases hany : m2.any (fun kv => kv.1 = q.1) = true
  · rw [if_pos hany, if_pos hany]
    refine forall₂_map_both _ _ ?_ h
    intro a b hab
    by_cases ha : a.1 = q.1
    · rw [if_pos ha, if_pos (hab.1 ▸ ha)]
      exact ⟨rfl, hch⟩
    · rw [if_neg ha, if_neg (fun hb => ha (hab.1 ▸ hb))]
      exact hab
  · rw [if_neg hany, if_neg hany]
    exact List.rel_append h (List.Forall₂.cons ⟨rfl, hch⟩ List.Forall₂.nil)

theorem nrel_foldl {l1 l2 : List (String × Node)} (h : List.Forall₂ NRel l1 l2) :
    ∀ {a1 a2 : List (String × Node)}, List.Forall₂ NRel a1 a2 →
      List.Forall₂ NRel (l1.foldl (fun m kv => jsMapSet m kv.1 kv.2) a1)
        (l2.foldl (fun m kv => jsMapSet m kv.1 kv.2) a2) := by
  induction h with
  | nil =>
    intro a1 a2 ha
    exact ha
  | cons hab htl ih =>
    intro a1 a2 ha
    simp only [List.foldl_cons]
    exact ih (nrel_jsMapSet ha hab)

theorem nrel_jsMapOfList {l1 l2 : List (String × Node)} (h : List.Forall₂ NRel l1 l2) :
    List.Forall₂ NRel (jsMapOfList l1) (jsMapOfList l2) :=
  nrel_foldl h List.Forall₂.nil

theorem jsMapSet_keys_of_any {α : Type} {m : List (String × α)} {k : String} {v : α}
    (h : m.any (fun kv => kv.1 = k) = true) :
    (jsMapSet m k v).map Prod.fst = m.map Prod.fst := by
  unfold jsMapSet
  rw [if_pos h, List.map_map]
  apply List.map_congr_left
  intro kv _
  by_cases hk : kv.1 = k
  · simp [hk]
  · simp [hk]

theorem jsMapSet_keys_of_not_any {α : Type} {m : List (String × α)} {k : String} {v : α}
    (h : ¬ m.any (fun kv => kv.1 = k) = true) :
    (jsMapSet m k v).map Prod.fst = m.map Prod.fst ++ [k] := by
  unfold jsMapSet
  rw [if_neg h]
  simp

theorem jsMapSet_keys_nodup {α : Type} {m : List (String × α)}
    (h : (m.map Prod.fst).Nodup) (k : String) (v : α) :
    ((jsMapSet m k v).map Prod.fst).Nodup := by
  by_cases hany : m.any (fun kv => kv.1 = k) = true
  · rwa [jsMapSet_keys_of_any hany]
  · rw [jsMapSet_keys_of_not_any hany]
    rw [List.nodup_append]
    refine ⟨h, List.nodup_singleton k, ?_⟩
    intro x hx hk
    apply hany
    rw [List.any_eq_true]
    rcases List.mem_map.mp hx with ⟨kv, hkv, hfst⟩
    refine ⟨kv, hkv, ?_⟩
    simp only [List.mem_singleton] at hk
    simp [hfst, hk]

theorem jsMapOfList_keys_nodup {α : Type} (l : List (String × α)) :
    ((jsMapOfList l).map Prod.fst).Nodup := by
  suffices haux : ∀ (a : List (String × α)), (a.map Prod.fst).Nodup →
      ((l.foldl (fun m kv => jsMapSet m kv.1 kv.2) a).map Prod.fst).Nodup by
    exact haux [] (by simp)
  induction l with
  | nil =>
    intro a ha
    exact ha
  | cons x xs ih =>
    intro a ha
    simp only [List.foldl_cons]
    exact ih _ (jsMapSet_keys_nodup ha x.1 x.2)

theorem nrel_get_partner {m1 m2 : List (String × Node)} (h : List.Forall₂ NRel m1 m2)
    (hnd : (m1.map Prod.fst).Nodup) :
    ∀ p ∈ m1, ∃ e, jsMapGet m2 p.1 = some e ∧ nodeParametersChanged p.2 e = false := by
  induction h with
  | nil =>
    intro p hp
    cases hp
  | cons hab htl ih =>
    rename_i a b tl1 tl2
    intro p hp
    rcases List.mem_cons.mp hp with rfl | hp2
    · refine ⟨b.2, ?_, ?_⟩
      · unfold jsMapGet
        rw [List.find?_cons_of_pos]
        · simp
        · simp [hab.1]
      · exact hab.2
    · have hkey : p.1 ≠ a.1 := by
        intro he
        rw [List.map_cons, List.nodup_cons] at hnd
        exact hnd.1 (he ▸ List.mem_map.mpr ⟨p, hp2, rfl⟩)
      have hb : ¬ b.1 = p.1 := by
        rw [← hab.1]
        exact fun hh => hkey hh.symm
      obtain ⟨e, hget, hch⟩ := ih (by rw [List.map_cons, List.nodup_cons] at hnd; exact hnd.2) p hp2
      refine ⟨e, ?_, hch⟩
      unfold jsMapGet at hget ⊢
      rw [List.find?_cons_of_neg]
      · exact hget
      · simpa using hb

theorem nrel_has_of_mem {m1 m2 : List (String × Node)} (h : List.Forall₂ NRel m1 m2)
    {p : String × Node} (hp : p ∈ m1) : jsMapHas m2 p.1 = true := by
  rw [show jsMapHas m2 p.1 = m2.any (fun kv => kv.1 = p.1) from rfl]
  rw [← nrel_any h]
  rw [List.any_eq_true]
  exact ⟨p, hp, by simp⟩

theorem nrel_has_of_mem_right {m1 m2 : List (String × Node)} (h : List.Forall₂ NRel m1 m2)
    {q : String × Node} (hq : q ∈ m2) : jsMapHas m1 q.1 = true := by
  rw [show jsMapHas m1 q.1 = m1.any (fun kv => kv.1 = q.1) from rfl]
  rw [nrel_any h]
  rw [List.any_eq_true]
  exact ⟨q, hq, by simp⟩

/-- Claim C6: for two workflow records that are structurally identical
except for credential identifier sub-fields inside node parameters (same
name, same connections, same settings, nodes pairwise equal in identity and
`credIdEquiv`-equivalent in parameters), the Change Detector reports
`hasChanges = false`. -/
theorem c6_no_op_detection (w1 w2 : Workflow) (ns1 ns2 : List Node)
    (hname : w1.name = w2.name)
    (hconn : w1.connections = w2.connections)
    (hset : w1.settings = w2.settings)
    (hn1 : w1.nodes = some ns1) (hn2 : w2.nodes = some ns2)
    (hnodes : List.Forall₂ (fun a b => a.name = b.name ∧ a.type = b.type ∧
        credIdEquiv (jsOrEmptyObj a.parameters) (jsOrEmptyObj b.parameters) = true) ns1 ns2) :
    (detectChanges w1 w2).hasChanges = false := by
  have hent : List.Forall₂ NRel (ns1.map (fun n => (nodeKey n, n)))
      (ns2.map (fun n => (nodeKey n, n))) := by
    refine forall₂_map_both _ _ ?_ hnodes
    intro a b hab
    refine ⟨by simp [nodeKey, hab.1, hab.2.1], ?_⟩
    unfold nodeParametersChanged
    have := credIdEquiv_removeCredentialIds _ _ hab.2.2
    unfold cleanParameters
    simp [this]
  have hmap := nrel_jsMapOfList hent
  have hnd := jsMapOfList_keys_nodup (ns1.map (fun n => (nodeKey n, n)))
  have hnodesEmpty : detectNodeChanges w1.nodes w2.nodes = [] := by
    rw [hn1, hn2]
    unfold detectNodeChanges
    simp only
    rw [List.append_eq_nil, List.append_eq_nil]
    refine ⟨⟨?_, ?_⟩, ?_⟩
    · rw [List.filterMap_eq_nil_iff]
      intro kn hkn
      simp [nrel_has_of_mem hmap hkn]
    · rw [List.filterMap_eq_nil_iff]
      intro kn hkn
      simp [nrel_has_of_mem_right hmap hkn]
    · rw [List.filterMap_eq_nil_iff]
      intro kn hkn
      obtain ⟨e, hget, hch⟩ := nrel_get_partner hmap hnd kn hkn
      simp [hget, hch]
  unfold detectChanges
  simp only [hnodesEmpty, hname, hconn, hset]
  simp [detectConnectionChanges, detectSettingsChanges]

/-- Claim C6, witness: two concrete records identical except for the `id`
inside a credential reference in a node parameter object. -/
def paramsC6a : J :=
  J.obj [("credential",
    J.obj [("id", J.str "17"), ("name", J.str "Prod Cred")]), ("url", J.str "/x")]

def paramsC6b : J :=
  J.obj [("credential",
    J.obj [("id", J.str "99"), ("name", J.str "Prod Cred")]), ("url", J.str "/x")]

def nodeC6a : Node :=
  { id := none, name := "Call", type := "n8n-nodes-base.httpRequest",
    parameters := some paramsC6a, credentials := none, webhookId := none, position := none }

def nodeC6b : Node :=
  { id := some "srv", name := "Call", type := "n8n-nodes-base.httpRequest",
    parameters := some paramsC6b, credentials := none, webhookId := none, position := none }

def wfC6a : Workflow :=
  { id := none, name := "Main", nodes := some [nodeC6a], connections := none,
    settings := none, createdAt := none, updatedAt := none, meta := none,
    credentials := none }

def wfC6b : Workflow :=
  { id := some "w9", name := "Main", nodes := some [nodeC6b], connections := none,
    settings := none, createdAt := none, updatedAt := none, meta := none,
    credentials := none }

theorem c6_no_op_detection_witness :
    wfC6a.name = wfC6b.name ∧
    wfC6a.connections = wfC6b.connections ∧
    wfC6a.settings = wfC6b.settings ∧
    wfC6a.nodes = some [nodeC6a] ∧
    wfC6b.nodes = some [nodeC6b] ∧
    credIdEquiv (jsOrEmptyObj nodeC6a.parameters) (jsOrEmptyObj nodeC6b.parameters) = true ∧
    (detectChanges wfC6a wfC6b).hasChanges = false := by
  have hequiv : credIdEquiv (jsOrEmptyObj nodeC6a.parameters)
      (jsOrEmptyObj nodeC6b.parameters) = true := by
    show credIdEquiv paramsC6a paramsC6b = true
    simp [paramsC6a, paramsC6b, credIdEquiv, credIdEquivFields, credIdEquivList,
      hasStringName, jsGet]
  refine ⟨rfl, rfl, rfl, rfl, rfl, hequiv, ?_⟩
  exact c6_no_op_detection wfC6a wfC6b [nodeC6a] [nodeC6b] rfl rfl rfl rfl rfl
    (List.Forall₂.cons ⟨rfl, rfl, hequiv⟩ List.Forall₂.nil)

/-! ## Lemmas about the dependency resolver

The DFS state grows monotonically (`visited`, `sorted` and `warnings` are
append-only), `sorted` and `visited` stay in lockstep, names on the
`visiting` stack are never emitted while on the stack, and — when no cycle
warning fires — every emitted record's loaded dependencies precede it. -/

/-- State extension: the second state extends the first by appended
suffixes in all three components. -/
def StExt (st st2 : RState) : Prop :=
  ∃ lv ls lw, st2.visited = st.visited ++ lv ∧ st2.sorted = st.sorted ++ ls ∧
    st2.warnings = st.warnings ++ lw

theorem stExt_refl (st : RState) : StExt st st :=
  ⟨[], [], [], by simp, by simp, by simp⟩

theorem stExt_trans {a b c : RState} (h1 : StExt a b) (h2 : StExt b c) : StExt a c := by
  obtain ⟨lv1, ls1, lw1, e1, e2, e3⟩ := h1
  obtain ⟨lv2, ls2, lw2, f1, f2, f3⟩ := h2
  exact ⟨lv1 ++ lv2, ls1 ++ ls2, lw1 ++ lw2,
    by rw [f1, e1, List.append_assoc],
    by rw [f2, e2, List.append_assoc],
    by rw [f3, e3, List.append_assoc]⟩

theorem stExt_mem_visited {a b : RState} (h : StExt a b) {x : String}
    (hx : x ∈ a.visited) : x ∈ b.visited := by
  obtain ⟨lv, _, _, e1, _, _⟩ := h
  rw [e1]
  exact List.mem_append_left _ hx

/-- Branch equations of `visit`. -/
theorem visit_eq_visited {ws : List WfRec} {visiting : List String} {n : String}
    {st : RState} (h : n ∈ st.visited) : visit ws visiting n st = st := by
  rw [visit.eq_def]
  simp [h]

theorem visit_eq_visiting {ws : List WfRec} {visiting : List String} {n : String}
    {st : RState} (h1 : ¬ n ∈ st.visited) (h2 : n ∈ visiting) :
    visit ws visiting n st = { st with warnings := st.warnings ++ [n] } := by
  rw [visit.eq_def]
  simp [h1, h2]

theorem visit_eq_missing {ws : List WfRec} {visiting : List String} {n : String}
    {st : RState} (h1 : ¬ n ∈ st.visited) (h2 : ¬ n ∈ visiting)
    (h3 : wmGet ws n = none) : visit ws visiting n st = st := by
  rw [visit.eq_def]
  rw [if_neg h1, dif_neg h2]
  split
  · rfl
  · simp_all

theorem visit_eq_found {ws : List WfRec} {visiting : List String} {n : String}
    {st : RState} {wf : WfRec} (h1 : ¬ n ∈ st.visited) (h2 : ¬ n ∈ visiting)
    (h3 : wmGet ws n = some wf) :
    visit ws visiting n st =
      ⟨(visitDeps ws (n :: visiting) wf.dependencies st).visited ++ [n],
       (visitDeps ws (n :: visiting) wf.dependencies st).sorted ++ [wf],
       (visitDeps ws (n :: visiting) wf.dependencies st).warnings⟩ := by
  rw [visit.eq_def]
  rw [if_neg h1, dif_neg h2]
  split
  · simp_all
  · next wf2 heq =>
      rw [h3] at heq
      injection heq with heq2
      subst heq2
      rfl

theorem visitDeps_nil {ws : List WfRec} {visiting : List String} {st : RState} :
    visitDeps ws visiting [] st = st := by
  rw [visitDeps.eq_def]

theorem visitDeps_cons {ws : List WfRec} {visiting : List String} {d : String}
    {rest : List String} {st : RState} :
    visitDeps ws visiting (d :: rest) st =
      visitDeps ws visiting rest (if wmHas ws d then visit ws visiting d st else st) := by
  rw [visitDeps.eq_def]

/-- Facts about the workflow map. -/
theorem wmGet_append_singleton (xs : List WfRec) (x : WfRec) (n : String) :
    wmGet (xs ++ [x]) n = if x.nameLower = n then some x else wmGet xs n := by
  unfold wmGet
  rw [List.foldl_append]
  rfl

theorem wmGet_name {ws : List WfRec} {n : String} {w : WfRec}
    (h : wmGet ws n = some w) : w.nameLower = n := by
  induction ws using List.reverseRecOn with
  | nil => simp [wmGet] at h
  | append_singleton xs x ih =>
    rw [wmGet_append_singleton] at h
    by_cases hx : x.nameLower = n
    · rw [if_pos hx] at h
      cases h
      exact hx
    · rw [if_neg hx] at h
      exact ih h

theorem wmGet_mem {ws : List WfRec} {n : String} {w : WfRec}
    (h : wmGet ws n = some w) : w ∈ ws := by
  induction ws using List.reverseRecOn with
  | nil => simp [wmGet] at h
  | append_singleton xs x ih =>
    rw [wmGet_append_singleton] at h
    by_cases hx : x.nameLower = n
    · rw [if_pos hx] at h
      cases h
      simp
    · rw [if_neg hx] at h
      exact List.mem_append_left _ (ih h)

theorem wmHas_of_mem_names {ws : List WfRec} {n : String}
    (h : n ∈ ws.map (fun w => w.nameLower)) : wmHas ws n = true := by
  unfold wmHas
  induction ws using List.reverseRecOn with
  | nil => simp at h
  | append_singleton xs x ih =>
    rw [wmGet_append_singleton]
    by_cases hx : x.nameLower = n
    · rw [if_pos hx]
      rfl
    · rw [if_neg hx]
      apply ih
      simp only [List.map_append, List.mem_append] at h
      rcases h with h | h
      · exact h
      · simp at h
        exact absurd h.symm hx

theorem wmGet_self_of_nodup {ws : List WfRec}
    (hnd : (ws.map (fun w => w.nameLower)).Nodup) {u : WfRec} (hu : u ∈ ws) :
    wmGet ws u.nameLower = some u := by
  induction ws using List.reverseRecOn with
  | nil => cases hu
  | append_singleton xs x ih =>
    rw [wmGet_append_singleton]
    rcases List.mem_append.mp hu with hu2 | hu2
    · have hxne : x.nameLower ≠ u.nameLower := by
        intro he
        rw [List.map_append, List.nodup_append] at hnd
        exact hnd.2.2 (List.mem_map.mpr ⟨u, hu2, rfl⟩) (by simp [he])
      rw [if_neg hxne]
      exact ih (by rw [List.map_append, List.nodup_append] at hnd; exact hnd.1) hu2
    · simp only [List.mem_singleton] at hu2
      subst hu2
      rw [if_pos rfl]

/-- Monotonicity: every call only appends to the state. -/
theorem visit_ext (ws : List WfRec) :
    ∀ (visiting : List String) (n : String) (st : RState),
      StExt st (visit ws visiting n st) := by
  refine visit.induct ws
    (fun visiting n st => StExt st (visit ws visiting n st))
    (fun visiting deps st => StExt st (visitDeps ws visiting deps st))
    ?_ ?_ ?_ ?_ ?_ ?_
  · intro visiting n st h1
    rw [visit_eq_visited h1]
    exact stExt_refl _
  · intro visiting n st h1 h2
    rw [visit_eq_visiting h1 h2]
    exact ⟨[], [], [n], by simp, by simp, by simp⟩
  · intro visiting n st h1 h2 h3
    rw [visit_eq_missing h1 h2 h3]
    exact stExt_refl _
  · intro visiting n st h1 h2 wf h3 ih
    rw [visit_eq_found h1 h2 h3]
    obtain ⟨lv, ls, lw, e1, e2, e3⟩ := ih
    exact ⟨lv ++ [n], ls ++ [wf], lw,
      by simp [e1], by simp [e2], by simp [e3]⟩
  · intro visiting st
    rw [visitDeps_nil]
    exact stExt_refl _
  · intro visiting st d rest stP ih1 ih2
    have hP : stP = (if h : wmHas ws d = true then visit ws visiting d st else st) := rfl
    rw [hP] at ih2
    rw [visitDeps_cons]
    by_cases hd : wmHas ws d = true
    · rw [if_pos hd]
      rw [dif_pos hd] at ih2
      exact stExt_trans ih1 ih2
    · rw [if_neg hd]
      rw [dif_neg hd] at ih2
      exact ih2

theorem visitDeps_ext (ws : List WfRec) (visiting : List String) :
    ∀ (deps : List String) (st : RState), StExt st (visitDeps ws visiting deps st) := by
  intro deps
  induction deps with
  | nil =>
    intro st
    rw [visitDeps_nil]
    exact stExt_refl _
  | cons d rest ih =>
    intro st
    rw [visitDeps_cons]
    by_cases hd : wmHas ws d = true
    · rw [if_pos hd]
      exact stExt_trans (visit_ext ws visiting d st) (ih _)
    · rw [if_neg hd]
      exact ih _

/-- Names on the visiting stack are never in the visited set. -/
def Disj (visiting : List String) (st : RState) : Prop :=
  ∀ v ∈ visiting, ¬ v ∈ st.visited

/-- The running invariant of the resolver state: the output array and the
visited set list the same names in the same order, every output record is
the map entry for its name, and no name is visited twice. -/
def GoodSt (ws : List WfRec) (st : RState) : Prop :=
  st.sorted.map (fun w => w.nameLower) = st.visited ∧
  (∀ w ∈ st.sorted, wmGet ws w.nameLower = some w) ∧
  st.visited.Nodup

theorem visit_good (ws : List WfRec) :
    ∀ (visiting : List String) (n : String) (st : RState), Disj visiting st →
      GoodSt ws st →
      GoodSt ws (visit ws visiting n st) ∧ Disj visiting (visit ws visiting n st) := by
  refine visit.induct ws
    (fun visiting n st => Disj visiting st → GoodSt ws st →
      GoodSt ws (visit ws visiting n st) ∧ Disj visiting (visit ws visiting n st))
    (fun visiting deps st => Disj visiting st → GoodSt ws st →
      GoodSt ws (visitDeps ws visiting deps st) ∧ Disj visiting (visitDeps ws visiting deps st))
    ?_ ?_ ?_ ?_ ?_ ?_
  · intro visiting n st h1 hd hg
    rw [visit_eq_visited h1]
    exact ⟨hg, hd⟩
  · intro visiting n st h1 h2 hd hg
    rw [visit_eq_visiting h1 h2]
    exact ⟨hg, hd⟩
  · intro visiting n st h1 h2 h3 hd hg
    rw [visit_eq_missing h1 h2 h3]
    exact ⟨hg, hd⟩
  · intro visiting n st h1 h2 wf h3 ih hd hg
    have hd2 : Disj (n :: visiting) st := by
      intro v hv
      rcases List.mem_cons.mp hv with rfl | hv2
      · exact h1
      · exact hd v hv2
    obtain ⟨hg2, hd3⟩ := ih hd2 hg
    rw [visit_eq_found h1 h2 h3]
    refine ⟨⟨?_, ?_, ?_⟩, ?_⟩
    · show ((visitDeps ws (n :: visiting) wf.dependencies st).sorted ++ [wf]).map
          (fun w => w.nameLower) =
        (visitDeps ws (n :: visiting) wf.dependencies st).visited ++ [n]
      rw [List.map_append, hg2.1]
      simp [wmGet_name h3]
    · intro w hw
      rcases List.mem_append.mp hw with hw2 | hw2
      · exact hg2.2.1 w hw2
      · simp only [List.mem_singleton] at hw2
        subst hw2
        rw [wmGet_name h3]
        exact h3
    · show ((visitDeps ws (n :: visiting) wf.dependencies st).visited ++ [n]).Nodup
      rw [List.nodup_append]
      refine ⟨hg2.2.2, List.nodup_singleton n, ?_⟩
      intro x hx hxx
      simp only [List.mem_singleton] at hxx
      subst hxx
      exact hd3 x (List.mem_cons_self x visiting) hx
    · intro v hv
      show ¬ v ∈ (visitDeps ws (n :: visiting) wf.dependencies st).visited ++ [n]
      rw [List.mem_append]
      rintro (hx | hx)
      · exact hd3 v (List.mem_cons_of_mem _ hv) hx
      · simp only [List.mem_singleton] at hx
        subst hx
        exact h2 hv
  · intro visiting st hd hg
    rw [visitDeps_nil]
    exact ⟨hg, hd⟩
  · intro visiting st d rest stP ih1 ih2 hd hg
    have hP : stP = (if h : wmHas ws d = true then visit ws visiting d st else st) := rfl
    rw [hP] at ih2
    rw [visitDeps_cons]
    by_cases hdd : wmHas ws d = true
    · rw [if_pos hdd]
      rw [dif_pos hdd] at ih2
      obtain ⟨hg2, hd2⟩ := ih1 hd hg
      exact ih2 hd2 hg2
    · rw [if_neg hdd]
      rw [dif_neg hdd] at ih2
      exact ih2 hd hg

theorem visitDeps_good (ws : List WfRec) (visiting : List String) :
    ∀ (deps : List String) (st : RState), Disj visiting st → GoodSt ws st →
      GoodSt ws (visitDeps ws visiting deps st) ∧
        Disj visiting (visitDeps ws visiting deps st) := by
  intro deps
  induction deps with
  | nil =>
    intro st hd hg
    rw [visitDeps_nil]
    exact ⟨hg, hd⟩
  | cons d rest ih =>
    intro st hd hg
    rw [visitDeps_cons]
    by_cases hdd : wmHas ws d = true
    · rw [if_pos hdd]
      obtain ⟨hg2, hd2⟩ := visit_good ws visiting d st hd hg
      exact ih _ hd2 hg2
    · rw [if_neg hdd]
      exact ih _ hd hg

/-- A name that is a loaded key and not on the visiting stack ends up
visited by its own call. -/
theorem visit_visits (ws : List WfRec) :
    ∀ (visiting : List String) (n : String) (st : RState), ¬ n ∈ visiting →
      wmHas ws n = true → n ∈ (visit ws visiting n st).visited := by
  refine visit.induct ws
    (fun visiting n st => ¬ n ∈ visiting → wmHas ws n = true →
      n ∈ (visit ws visiting n st).visited)
    (fun visiting deps st => True)
    ?_ ?_ ?_ ?_ ?_ ?_
  · intro visiting n st h1 _ _
    rw [visit_eq_visited h1]
    exact h1
  · intro visiting n st h1 h2 hnv _
    exact absurd h2 hnv
  · intro visiting n st h1 h2 h3 _ hhas
    unfold wmHas at hhas
    rw [h3] at hhas
    cases hhas
  · intro visiting n st h1 h2 wf h3 _ _ _
    rw [visit_eq_found h1 h2 h3]
    simp
  · intro _ _
    trivial
  · intro _ _ _ _ _ _ _
    trivial

/-- Dependency closure of an emitted prefix: every record's loaded
dependencies appear among the names already emitted before it (after the
`seen` context). -/
def ClosedFrom (ws : List WfRec) : List String → List WfRec → Prop
  | _, [] => True
  | seen, w :: rest =>
    (∀ d ∈ w.dependencies, wmHas ws d = true → d ∈ seen) ∧
      ClosedFrom ws (seen ++ [w.nameLower]) rest

theorem closedFrom_append {ws : List WfRec} :
    ∀ {seen : List String} {l : List WfRec} {w : WfRec}, ClosedFrom ws seen l →
      (∀ d ∈ w.dependencies, wmHas ws d = true →
        d ∈ seen ++ l.map (fun u => u.nameLower)) →
      ClosedFrom ws seen (l ++ [w]) := by
  intro seen l
  induction l generalizing seen with
  | nil =>
    intro w _ hdep
    refine ⟨?_, trivial⟩
    intro d hd hhas
    simpa using hdep d hd hhas
  | cons u l2 ih =>
    intro w hc hdep
    refine ⟨hc.1, ?_⟩
    apply ih hc.2
    intro d hd hhas
    have := hdep d hd hhas
    simpa [List.append_assoc] using this

theorem closedFrom_split {ws : List WfRec} :
    ∀ {seen : List String} {l l1 l2 : List WfRec} {w : WfRec}, ClosedFrom ws seen l →
      l = l1 ++ w :: l2 →
      ∀ d ∈ w.dependencies, wmHas ws d = true →
        d ∈ seen ++ l1.map (fun u => u.nameLower) := by
  intro seen l l1
  induction l1 generalizing seen l with
  | nil =>
    intro l2 w hc hl d hd hhas
    subst hl
    simpa using hc.1 d hd hhas
  | cons u l1t ih =>
    intro l2 w hc hl d hd hhas
    subst hl
    have := ih hc.2 rfl d hd hhas
    simpa [List.append_assoc] using this

theorem append_append_eq_self {α : Type} {a : List α} {l1 l2 : List α}
    (h : (a ++ l1) ++ l2 = a) : l1 = [] ∧ l2 = [] := by
  have hlen := congrArg List.length h
  simp only [List.length_append] at hlen
  constructor
  · rw [← List.length_eq_zero]
    omega
  · rw [← List.length_eq_zero]
    omega

/-- When a call produces no new warnings, the emitted prefix stays
dependency-closed, and the visited name itself lands in the visited set. -/
theorem visit_closed (ws : List WfRec) :
    ∀ (visiting : List String) (n : String) (st : RState),
      (visit ws visiting n st).warnings = st.warnings → Disj visiting st →
      GoodSt ws st → ClosedFrom ws [] st.sorted →
      ClosedFrom ws [] (visit ws visiting n st).sorted ∧
        (wmHas ws n = true → n ∈ (visit ws visiting n st).visited) := by
  refine visit.induct ws
    (fun visiting n st => (visit ws visiting n st).warnings = st.warnings →
      Disj visiting st → GoodSt ws st → ClosedFrom ws [] st.sorted →
      ClosedFrom ws [] (visit ws visiting n st).sorted ∧
        (wmHas ws n = true → n ∈ (visit ws visiting n st).visited))
    (fun visiting deps st => (visitDeps ws visiting deps st).warnings = st.warnings →
      Disj visiting st → GoodSt ws st → ClosedFrom ws [] st.sorted →
      ClosedFrom ws [] (visitDeps ws visiting deps st).sorted ∧
        (∀ d ∈ deps, wmHas ws d = true → d ∈ (visitDeps ws visiting deps st).visited))
    ?_ ?_ ?_ ?_ ?_ ?_
  · intro visiting n st h1 _ _ _ hcl
    rw [visit_eq_visited h1]
    exact ⟨hcl, fun _ => h1⟩
  · intro visiting n st h1 h2 hw _ _ _
    exfalso
    rw [visit_eq_visiting h1 h2] at hw
    have := congrArg List.length hw
    simp at this
  · intro visiting n st h1 h2 h3 _ _ _ hcl
    rw [visit_eq_missing h1 h2 h3]
    refine ⟨hcl, ?_⟩
    intro hhas
    unfold wmHas at hhas
    rw [h3] at hhas
    cases hhas
  · intro visiting n st h1 h2 wf h3 ih hw hd hg hcl
    rw [visit_eq_found h1 h2 h3] at hw ⊢
    simp only at hw
    have hd2 : Disj (n :: visiting) st := by
      intro v hv
      rcases List.mem_cons.mp hv with rfl | hv2
      · exact h1
      · exact hd v hv2
    obtain ⟨hcl2, hdeps⟩ := ih hw hd2 hg hcl
    have hg2 := (visitDeps_good ws (n :: visiting) wf.dependencies st hd2 hg).1
    refine ⟨?_, fun _ => by simp⟩
    show ClosedFrom ws []
      ((visitDeps ws (n :: visiting) wf.dependencies st).sorted ++ [wf])
    apply closedFrom_append hcl2
    intro d hdep hhas
    have := hdeps d hdep hhas
    rw [← hg2.1] at this
    simpa using this
  · intro visiting st _ _ _ hcl
    rw [visitDeps_nil]
    exact ⟨hcl, by simp⟩
  · intro visiting st d rest stP ih1 ih2 hw hd hg hcl
    have hP : stP = (if h : wmHas ws d = true then visit ws visiting d st else st) := rfl
    rw [hP] at ih2
    rw [visitDeps_cons] at hw ⊢
    by_cases hdd : wmHas ws d = true
    · rw [if_pos hdd] at hw ⊢
      rw [dif_pos hdd] at ih2
      obtain ⟨lw1, hw1⟩ : ∃ lw1, (visit ws visiting d st).warnings = st.warnings ++ lw1 := by
        obtain ⟨_, _, lw1, _, _, e3⟩ := visit_ext ws visiting d st
        exact ⟨lw1, e3⟩
      obtain ⟨lw2, hw2⟩ : ∃ lw2,
          (visitDeps ws visiting rest (visit ws visiting d st)).warnings =
            (visit ws visiting d st).warnings ++ lw2 := by
        obtain ⟨_, _, lw2, _, _, e3⟩ := visitDeps_ext ws visiting rest (visit ws visiting d st)
        exact ⟨lw2, e3⟩
      rw [hw2, hw1] at hw
      obtain ⟨he1, he2⟩ := append_append_eq_self hw
      subst he1
      have hw1z : (visit ws visiting d st).warnings = st.warnings := by
        rw [hw1, List.append_nil]
      obtain ⟨hclA, hmemA⟩ := ih1 hw1z hd hg hcl
      obtain ⟨hgA, hdA⟩ := visit_good ws visiting d st hd hg
      have hwB : (visitDeps ws visiting rest (visit ws visiting d st)).warnings =
          (visit ws visiting d st).warnings := by
        rw [hw2, he2, List.append_nil]
      obtain ⟨hclB, hmemB⟩ := ih2 hwB hdA hgA hclA
      refine ⟨hclB, ?_⟩
      intro e he hhase
      rcases List.mem_cons.mp he with rfl | he2
      · exact stExt_mem_visited
          (visitDeps_ext ws visiting rest (visit ws visiting e st)) (hmemA hhase)
      · exact hmemB e he2 hhase
    · rw [if_neg hdd] at hw ⊢
      rw [dif_neg hdd] at ih2
      obtain ⟨hclB, hmemB⟩ := ih2 hw hd hg hcl
      refine ⟨hclB, ?_⟩
      intro e he hhase
      rcases List.mem_cons.mp he with rfl | he2
      · exact absurd hhase hdd
      · exact hmemB e he2 hhase

/-- A chain of in-progress names witnesses a dependency path back to its
head. -/
theorem chain_reaches (ws : List WfRec) :
    ∀ (a : String) (l : List String),
      List.Chain' (fun x y => DependsOn ws y x) (a :: l) →
      ∀ b ∈ l, Relation.TransGen (DependsOn ws) b a := by
  intro a l
  induction l generalizing a with
  | nil =>
    intro _ b hb
    cases hb
  | cons c l2 ih =>
    intro hch b hb
    rw [List.chain'_cons] at hch
    rcases List.mem_cons.mp hb with rfl | hb2
    · exact Relation.TransGen.single hch.1
    · exact Relation.TransGen.tail (ih c hch.2 b hb2) hch.1

/-- Under an acyclic dependency relation, a call whose visiting stack forms
a dependency chain into the visited name never emits a warning. -/
theorem visit_silent (ws : List WfRec)
    (hacyc : ∀ x, ¬ Relation.TransGen (DependsOn ws) x x) :
    ∀ (visiting : List String) (n : String) (st : RState),
      List.Chain' (fun x y => DependsOn ws y x) (n :: visiting) →
      (visit ws visiting n st).warnings = st.warnings := by
  refine visit.induct ws
    (fun visiting n st => List.Chain' (fun x y => DependsOn ws y x) (n :: visiting) →
      (visit ws visiting n st).warnings = st.warnings)
    (fun visiting deps st => ∀ m vrest, visiting = m :: vrest →
      List.Chain' (fun x y => DependsOn ws y x) visiting →
      (∀ d ∈ deps, wmHas ws d = true → DependsOn ws m d) →
      (visitDeps ws visiting deps st).warnings = st.warnings)
    ?_ ?_ ?_ ?_ ?_ ?_
  · intro visiting n st h1 _
    rw [visit_eq_visited h1]
  · intro visiting n st h1 h2 hch
    exfalso
    exact hacyc n (chain_reaches ws n visiting hch n h2)
  · intro visiting n st h1 h2 h3 _
    rw [visit_eq_missing h1 h2 h3]
  · intro visiting n st h1 h2 wf h3 ih hch
    rw [visit_eq_found h1 h2 h3]
    simp only
    apply ih n visiting rfl hch
    intro d hd hhas
    show edgeB ws n d = true
    unfold edgeB
    rw [h3]
    simp [hd, hhas]
  · intro visiting st _ _ _ _ _
    rw [visitDeps_nil]
  · intro visiting st d rest stP ih1 ih2 m vrest hvis hch hedges
    have hP : stP = (if h : wmHas ws d = true then visit ws visiting d st else st) := rfl
    rw [hP] at ih2
    rw [visitDeps_cons]
    by_cases hdd : wmHas ws d = true
    · rw [if_pos hdd]
      rw [dif_pos hdd] at ih2
      have hch2 : List.Chain' (fun x y => DependsOn ws y x) (d :: visiting) := by
        rw [hvis]
        rw [List.chain'_cons]
        exact ⟨hedges d (List.mem_cons_self d rest) hdd, hvis ▸ hch⟩
      have hw1 := ih1 hch2
      rw [ih2 m vrest hvis hch (fun e he hh => hedges e (List.mem_cons_of_mem d he) hh)]
      exact hw1
    · rw [if_neg hdd]
      rw [dif_neg hdd] at ih2
      exact ih2 m vrest hvis hch (fun e he hh => hedges e (List.mem_cons_of_mem d he) hh)

/-! ## The top-level resolver loop -/

theorem sortFold_ext (ws : List WfRec) :
    ∀ (l : List WfRec) (st : RState),
      StExt st (l.foldl (fun st wf => visit ws [] wf.nameLower st) st) := by
  intro l
  induction l with
  | nil =>
    intro st
    exact stExt_refl st
  | cons u l2 ih =>
    intro st
    rw [List.foldl_cons]
    exact stExt_trans (visit_ext ws [] u.nameLower st) (ih _)

theorem disj_nil (st : RState) : Disj [] st := by
  intro v hv
  cases hv

theorem sortFold_good (ws : List WfRec) :
    ∀ (l : List WfRec) (st : RState), GoodSt ws st →
      GoodSt ws (l.foldl (fun st wf => visit ws [] wf.nameLower st) st) := by
  intro l
  induction l with
  | nil =>
    intro st hg
    exact hg
  | cons u l2 ih =>
    intro st hg
    rw [List.foldl_cons]
    exact ih _ (visit_good ws [] u.nameLower st (disj_nil st) hg).1

theorem sortFold_complete (ws : List WfRec) :
    ∀ (l : List WfRec) (st : RState), (∀ wf ∈ l, wmHas ws wf.nameLower = true) →
      ∀ wf ∈ l, wf.nameLower ∈
        (l.foldl (fun st wf => visit ws [] wf.nameLower st) st).visited := by
  intro l
  induction l with
  | nil =>
    intro st _ wf hwf
    cases hwf
  | cons u l2 ih =>
    intro st hhas wf hwf
    rw [List.foldl_cons]
    rcases List.mem_cons.mp hwf with rfl | hwf2
    · apply stExt_mem_visited (sortFold_ext ws l2 _)
      exact visit_visits ws [] wf.nameLower st (by simp)
        (hhas wf (List.mem_cons_self wf l2))
    · exact ih _ (fun v hv => hhas v (List.mem_cons_of_mem _ hv)) wf hwf2

theorem sortFold_closed (ws : List WfRec) :
    ∀ (l : List WfRec) (st : RState),
      (l.foldl (fun st wf => visit ws [] wf.nameLower st) st).warnings = st.warnings →
      GoodSt ws st → ClosedFrom ws [] st.sorted →
      ClosedFrom ws []
        (l.foldl (fun st wf => visit ws [] wf.nameLower st) st).sorted := by
  intro l
  induction l with
  | nil =>
    intro st _ _ hcl
    exact hcl
  | cons u l2 ih =>
    intro st hw hg hcl
    rw [List.foldl_cons] at hw ⊢
    obtain ⟨lw1, hw1⟩ : ∃ lw1,
        (visit ws [] u.nameLower st).warnings = st.warnings ++ lw1 := by
      obtain ⟨_, _, lw1, _, _, e3⟩ := visit_ext ws [] u.nameLower st
      exact ⟨lw1, e3⟩
    obtain ⟨lw2, hw2⟩ : ∃ lw2,
        (l2.foldl (fun st wf => visit ws [] wf.nameLower st)
          (visit ws [] u.nameLower st)).warnings =
            (visit ws [] u.nameLower st).warnings ++ lw2 := by
      obtain ⟨_, _, lw2, _, _, e3⟩ := sortFold_ext ws l2 (visit ws [] u.nameLower st)
      exact ⟨lw2, e3⟩
    rw [hw2, hw1] at hw
    obtain ⟨he1, he2⟩ := append_append_eq_self hw
    subst he1
    have hw1z : (visit ws [] u.nameLower st).warnings = st.warnings := by
      rw [hw1, List.append_nil]
    have hwB : (l2.foldl (fun st wf => visit ws [] wf.nameLower st)
        (visit ws [] u.nameLower st)).warnings =
          (visit ws [] u.nameLower st).warnings := by
      rw [hw2, he2, List.append_nil]
    obtain ⟨hcl1, _⟩ :=
      visit_closed ws [] u.nameLower st hw1z (disj_nil st) hg hcl
    exact ih _ hwB (visit_good ws [] u.nameLower st (disj_nil st) hg).1 hcl1

theorem sortFold_silent (ws : List WfRec)
    (hacyc : ∀ x, ¬ Relation.TransGen (DependsOn ws) x x) :
    ∀ (l : List WfRec) (st : RState),
      (l.foldl (fun st wf => visit ws [] wf.nameLower st) st).warnings =
        st.warnings := by
  intro l
  induction l with
  | nil =>
    intro st
    rfl
  | cons u l2 ih =>
    intro st
    rw [List.foldl_cons, ih, visit_silent ws hacyc [] u.nameLower st (by simp)]

theorem goodSt_init (ws : List WfRec) : GoodSt ws ⟨[], [], []⟩ := by
  refine ⟨by simp, ?_, ?_⟩
  · intro w hw
    cases hw
  · exact List.nodup_nil

theorem sortState_good (ws : List WfRec) : GoodSt ws (sortState ws) :=
  sortFold_good ws ws ⟨[], [], []⟩ (goodSt_init ws)

theorem sortState_complete (ws : List WfRec) :
    ∀ wf ∈ ws, wf.nameLower ∈ (sortState ws).visited :=
  sortFold_complete ws ws ⟨[], [], []⟩
    (fun wf hwf => wmHas_of_mem_names (List.mem_map.mpr ⟨wf, hwf, rfl⟩))

theorem sortState_closed (ws : List WfRec) (h : (sortState ws).warnings = []) :
    ClosedFrom ws [] (sortByDependencies ws) := by
  have : (sortState ws).warnings = (⟨[], [], []⟩ : RState).warnings := h
  exact sortFold_closed ws ws ⟨[], [], []⟩ this (goodSt_init ws) trivial

theorem sortState_silent (ws : List WfRec)
    (hacyc : ∀ x, ¬ Relation.TransGen (DependsOn ws) x x) :
    (sortState ws).warnings = [] :=
  sortFold_silent ws hacyc ws ⟨[], [], []⟩

/-! ## Position lemmas and the resolver claims -/

theorem indexOf_append_lt {α : Type} [DecidableEq α] {b : α} {l1 : List α}
    (l2 : List α) (hb : b ∈ l1) : (l1 ++ l2).indexOf b < l1.length := by
  induction l1 with
  | nil => cases hb
  | cons u l ih =>
    rw [List.cons_append]
    by_cases hub : u = b
    · subst hub
      rw [List.indexOf_cons_self]
      simp
    · rw [List.indexOf_cons_ne _ hub]
      have hb2 : b ∈ l := by
        rcases List.mem_cons.mp hb with rfl | h2
        · exact absurd rfl hub
        · exact h2
      have := ih hb2
      simp only [List.length_cons]
      omega

theorem indexOf_append_eq {α : Type} [DecidableEq α] {a : α} {l1 l2 : List α}
    (ha : ¬ a ∈ l1) : (l1 ++ a :: l2).indexOf a = l1.length := by
  induction l1 with
  | nil => simp [List.indexOf_cons_self]
  | cons u l ih =>
    have hne : u ≠ a := by
      intro he
      apply ha
      rw [he]
      exact List.mem_cons_self a l
    rw [List.cons_append, List.indexOf_cons_ne _ hne, List.length_cons,
      ih (fun h => ha (List.mem_cons_of_mem _ h))]

theorem sortByDependencies_names_nodup (ws : List WfRec) :
    ((sortByDependencies ws).map (fun w => w.nameLower)).Nodup := by
  have hg := sortState_good ws
  show ((sortState ws).sorted.map (fun w => w.nameLower)).Nodup
  rw [hg.1]
  exact hg.2.2

theorem sortByDependencies_nodup (ws : List WfRec) : (sortByDependencies ws).Nodup :=
  (sortByDependencies_names_nodup ws).of_map

theorem sortByDependencies_perm (ws : List WfRec)
    (hnd : (ws.map (fun w => w.nameLower)).Nodup) :
    (sortByDependencies ws).Perm ws := by
  have hg := sortState_good ws
  rw [List.perm_ext_iff_of_nodup (sortByDependencies_nodup ws) hnd.of_map]
  intro w
  constructor
  · intro hw
    exact wmGet_mem (hg.2.1 w hw)
  · intro hw
    have h1 : w.nameLower ∈ (sortState ws).visited := sortState_complete ws w hw
    rw [← hg.1] at h1
    rcases List.mem_map.mp h1 with ⟨w2, hw2, hname⟩
    have e1 : wmGet ws w2.nameLower = some w2 := hg.2.1 w2 hw2
    have e2 : wmGet ws w.nameLower = some w := wmGet_self_of_nodup hnd hw
    rw [hname, e2] at e1
    injection e1 with e1
    rw [e1]
    exact hw2

theorem sortByDependencies_ordering (ws : List WfRec)
    (hnd : (ws.map (fun w => w.nameLower)).Nodup)
    (hclosed : ClosedFrom ws [] (sortByDependencies ws)) :
    ∀ a ∈ ws, ∀ b ∈ ws, b.nameLower ∈ a.dependencies →
      (sortByDependencies ws).indexOf b < (sortByDependencies ws).indexOf a := by
  intro a ha b hb hdep
  have hg := sortState_good ws
  have hperm := sortByDependencies_perm ws hnd
  have haout : a ∈ sortByDependencies ws := hperm.mem_iff.mpr ha
  obtain ⟨l1, l2, hsplit⟩ := List.append_of_mem haout
  have hbl1names : b.nameLower ∈ l1.map (fun u => u.nameLower) := by
    have := closedFrom_split hclosed hsplit b.nameLower hdep
      (wmHas_of_mem_names (List.mem_map.mpr ⟨b, hb, rfl⟩))
    simpa using this
  rcases List.mem_map.mp hbl1names with ⟨b2, hb2l1, hb2name⟩
  have hb2out : b2 ∈ sortByDependencies ws := by
    rw [hsplit]
    exact List.mem_append_left _ hb2l1
  have e1 : wmGet ws b2.nameLower = some b2 := hg.2.1 b2 hb2out
  have e2 : wmGet ws b.nameLower = some b := wmGet_self_of_nodup hnd hb
  rw [hb2name, e2] at e1
  injection e1 with e1
  have hanl1 : ¬ a ∈ l1 := by
    have hout_nd := sortByDependencies_nodup ws
    rw [hsplit, List.nodup_append] at hout_nd
    intro hal1
    exact hout_nd.2.2 hal1 (List.mem_cons_self a l2)
  rw [hsplit, indexOf_append_eq hanl1]
  apply indexOf_append_lt
  rw [e1]
  exact hb2l1

theorem acyclic_of_no_warnings (ws : List WfRec)
    (h : (sortState ws).warnings = []) :
    ∀ n, ¬ Relation.TransGen (DependsOn ws) n n := by
  have hg := sortState_good ws
  have hcl := sortState_closed ws h
  have hnd_names := sortByDependencies_names_nodup ws
  have hrank : ∀ x y, DependsOn ws x y →
      ((sortByDependencies ws).map (fun w => w.nameLower)).indexOf y <
        ((sortByDependencies ws).map (fun w => w.nameLower)).indexOf x := by
    intro x y hxy
    unfold DependsOn edgeB at hxy
    cases hw : wmGet ws x with
    | none =>
      rw [hw] at hxy
      cases hxy
    | some w =>
      rw [hw] at hxy
      rcases (Bool.and_eq_true _ _).mp hxy with ⟨hydep, hyhas⟩
      have hydep2 : y ∈ w.dependencies := by simpa using hydep
      have hxname : w.nameLower = x := wmGet_name hw
      have hwin : w.nameLower ∈ (sortState ws).visited :=
        sortState_complete ws w (wmGet_mem hw)
      rw [← hg.1] at hwin
      rcases List.mem_map.mp hwin with ⟨w2, hw2out, hw2name⟩
      have e1 : wmGet ws w2.nameLower = some w2 := hg.2.1 w2 hw2out
      rw [hw2name, hxname, hw] at e1
      injection e1 with e1
      subst e1
      obtain ⟨l1, l2, hsplit⟩ :=
        List.append_of_mem (show w ∈ sortByDependencies ws from hw2out)
      have hclsp := closedFrom_split hcl hsplit y hydep2 hyhas
      simp only [List.nil_append] at hclsp
      have hxnot : ¬ x ∈ l1.map (fun u => u.nameLower) := by
        rw [hsplit, List.map_append, List.map_cons, List.nodup_append] at hnd_names
        intro hxin
        apply hnd_names.2.2 hxin
        rw [← hxname]
        exact List.mem_cons_self _ _
      rw [hsplit, List.map_append, List.map_cons, hxname, indexOf_append_eq hxnot]
      exact indexOf_append_lt _ hclsp
  intro n htg
  have hmono : ∀ p q, Relation.TransGen (DependsOn ws) p q →
      ((sortByDependencies ws).map (fun w => w.nameLower)).indexOf q <
        ((sortByDependencies ws).map (fun w => w.nameLower)).indexOf p := by
    intro p q htg2
    induction htg2 with
    | single h1 => exact hrank _ _ h1
    | tail _ h2 ih => exact lt_trans (hrank _ _ h2) ih
  exact lt_irrefl _ (hmono n n htg)

/-- Claim C1, counterexample.  The claim has no acyclicity hypothesis.  For
the two-record repository where A and B (case-insensitively unique names)
each depend on the other, the resolver emits a best-effort order, and the
ordering property of the claim is violated (it is unsatisfiable for a
mutual dependency). -/
def wfRecA : WfRec :=
  { name := "A", nameLower := "a", workflow := wfC8, dependencies := ["b"] }

def wfRecB : WfRec :=
  { name := "B", nameLower := "b", workflow := wfC8, dependencies := ["a"] }

def wsCyc : List WfRec := [wfRecA, wfRecB]

theorem c1_counterexample :
    ((wsCyc.map (fun w => w.nameLower)).Nodup) ∧
    ¬ (∀ a ∈ wsCyc, ∀ b ∈ wsCyc, b.nameLower ∈ a.dependencies →
        (sortByDependencies wsCyc).indexOf b < (sortByDependencies wsCyc).indexOf a) := by
  have hout : sortByDependencies wsCyc = [wfRecB, wfRecA] := by
    simp [sortByDependencies, sortState, wsCyc, visit, visitDeps, wmGet, wmHas,
      wfRecA, wfRecB]
  refine ⟨by decide, ?_⟩
  rw [hout]
  decide

/-- Claim C1, amended: for every set of loaded records with
case-insensitively unique identity keys whose dependency relation (restricted
to loaded records) is acyclic, the resolver output contains every loaded
record exactly once, and every record whose identity key lies in the
dependency set of another loaded record appears strictly before it. -/
theorem c1_dependency_order (ws : List WfRec)
    (hnd : (ws.map (fun w => w.nameLower)).Nodup)
    (hacyc : ∀ n, ¬ Relation.TransGen (DependsOn ws) n n) :
    (sortByDependencies ws).Perm ws ∧
    ∀ a ∈ ws, ∀ b ∈ ws, b.nameLower ∈ a.dependencies →
      (sortByDependencies ws).indexOf b < (sortByDependencies ws).indexOf a := by
  have hsilent := sortState_silent ws hacyc
  exact ⟨sortByDependencies_perm ws hnd,
    sortByDependencies_ordering ws hnd (sortState_closed ws hsilent)⟩

/-- Claim C1, witness: a concrete acyclic two-record repository (Main
depends on Login). -/
def wfRecA2 : WfRec :=
  { name := "Main", nameLower := "a", workflow := wfC8, dependencies := ["b"] }

def wfRecB2 : WfRec :=
  { name := "Login", nameLower := "b", workflow := wfC8, dependencies := [] }

def wsAcy : List WfRec := [wfRecA2, wfRecB2]

theorem wsAcy_acyclic : ∀ n, ¬ Relation.TransGen (DependsOn wsAcy) n n := by
  have hkey : ∀ x y, DependsOn wsAcy x y → x = "a" ∧ y = "b" := by
    intro x y h
    unfold DependsOn edgeB at h
    by_cases hb : x = "b"
    · subst hb
      have : wmGet wsAcy "b" = some wfRecB2 := by decide
      rw [this] at h
      simp [wfRecB2] at h
    · by_cases ha : x = "a"
      · subst ha
        have : wmGet wsAcy "a" = some wfRecA2 := by decide
        rw [this] at h
        rcases (Bool.and_eq_true _ _).mp h with ⟨h1, h2⟩
        have : y = "b" := by simpa [wfRecA2] using h1
        exact ⟨rfl, this⟩
      · have : wmGet wsAcy x = none := by
          show (if wfRecB2.nameLower = x then some wfRecB2
            else if wfRecA2.nameLower = x then some wfRecA2 else none) = none
          rw [if_neg (fun he => hb he.symm), if_neg (fun he => ha he.symm)]
        rw [this] at h
        cases h
  have htg : ∀ x y, Relation.TransGen (DependsOn wsAcy) x y → x = "a" ∧ y = "b" := by
    intro x y h
    induction h with
    | single h1 => exact hkey _ _ h1
    | tail _ h2 ih =>
      obtain ⟨hx, hmid⟩ := ih
      obtain ⟨hmid2, hy⟩ := hkey _ _ h2
      rw [hmid] at hmid2
      exact absurd hmid2 (by decide)
  intro n htrans
  obtain ⟨h1, h2⟩ := htg n n htrans
  rw [h1] at h2
  exact absurd h2 (by decide)

theorem c1_dependency_order_witness :
    ((wsAcy.map (fun w => w.nameLower)).Nodup) ∧
    (∀ n, ¬ Relation.TransGen (DependsOn wsAcy) n n) ∧
    ((sortByDependencies wsAcy).Perm wsAcy ∧
      ∀ a ∈ wsAcy, ∀ b ∈ wsAcy, b.nameLower ∈ a.dependencies →
        (sortByDependencies wsAcy).indexOf b < (sortByDependencies wsAcy).indexOf a) :=
  ⟨by decide, wsAcy_acyclic,
    c1_dependency_order wsAcy (by decide) wsAcy_acyclic⟩

/-- Claim C2: for every loaded set with case-insensitively unique names that
contains a dependency cycle, the resolver (a total function — termination is
by construction, mirroring the bounded recursion depth of the script) emits
every loaded record exactly once and records at least one cycle warning. -/
theorem c2_cycle_tolerance (ws : List WfRec)
    (hnd : (ws.map (fun w => w.nameLower)).Nodup)
    (hcyc : ∃ n, Relation.TransGen (DependsOn ws) n n) :
    (sortByDependencies ws).Perm ws ∧ (sortState ws).warnings ≠ [] := by
  refine ⟨sortByDependencies_perm ws hnd, ?_⟩
  intro hw
  obtain ⟨n, htg⟩ := hcyc
  exact acyclic_of_no_warnings ws hw n htg

/-- Claim C2, witness: the mutual two-record cycle A→B→A terminates with
both records emitted once and a warning recorded. -/
theorem c2_cycle_tolerance_witness :
    ((wsCyc.map (fun w => w.nameLower)).Nodup) ∧
    (∃ n, Relation.TransGen (DependsOn wsCyc) n n) ∧
    ((sortByDependencies wsCyc).Perm wsCyc ∧ (sortState wsCyc).warnings ≠ []) := by
  have h1 : DependsOn wsCyc "a" "b" := by
    unfold DependsOn
    decide
  have h2 : DependsOn wsCyc "b" "a" := by
    unfold DependsOn
    decide
  have hcyc : ∃ n, Relation.TransGen (DependsOn wsCyc) n n :=
    ⟨"a", Relation.TransGen.head h1 (Relation.TransGen.single h2)⟩
  exact ⟨by decide, hcyc, c2_cycle_tolerance wsCyc (by decide) hcyc⟩

theorem c9_reference_rewrite_witness :
    wfC9.nodes = some [nodeC9] ∧
    ((updateWorkflowReferences wfC9 mapC9).nodes = some ([nodeC9].map (updateRefNode mapC9)) ∧
     (∀ node : Node, node.type = execWorkflowType →
      ∀ pk wp s, selectWorkflowParam (jsOrEmptyObj node.parameters) = some pk →
        jGet (jsOrEmptyObj node.parameters) pk = some wp →
        jGet wp "cachedResultName" = some (J.str s) →
        s ≠ "" →
        ((∀ i, mapGetId mapC9 s.toLower = some i → i ≠ "" →
            jGet ((jGet (jsOrEmptyObj (updateRefNode mapC9 node).parameters) pk).getD J.null)
              "value" = some (J.str i)) ∧
          (mapGetId mapC9 s.toLower = none → updateRefNode mapC9 node = node)))) :=
  ⟨by decide, c9_reference_rewrite mapC9 wfC9 [nodeC9] (by decide)⟩

end N8n
